import Mathlib

/-!
# vi-assistant: exact lookup, keyword search and the favorites store

A shallow embedding of the packages `internal/explain`, `internal/search`
and `internal/favorites` and of the `fav add` command of package `cmd`,
followed by the properties proved about them.

Modelling conventions.

* The strings of the catalog and the queries of the lookup and of the search
  are well-formed text, given by their code points (`GoString`); the strings
  of the catalog come out of `json.Unmarshal` and are therefore well-formed.
* The strings the favorites store receives and keeps are Go strings as they
  are, sequences of bytes, well-formed UTF-8 or not (`ByteString`);
  `utf8.Bytes` gives the bytes of a text.
* The case tables of package `unicode` are a parameter (`CaseTables`); every
  general theorem holds for every choice of tables. `asciiTables` is the
  restriction of the Unicode tables to inputs made of ASCII characters and is
  used to evaluate the functions on concrete ASCII inputs.
* `loadCommands` reads the catalog file; its outcome (an error or the decoded
  list of records) is the parameter `loadCommands` of the functions calling it.
* The favorites file is either absent or holds some data (`Option Data`).
  The theorems on `Add`, `Remove`, `List` and `Clear` hold for every codec
  (`JSON`) that meets the contract `JSON.Contract`: it writes and reads back
  every string with each byte that is not part of the encoding of a code
  point replaced by U+FFFD. `goJSON` is `encoding/json` itself, as far as the
  store uses it: the text `MarshalIndent` writes for a `[]Favorite` (`null`
  for the nil slice, `[]` for the empty one) and the decoder of any document
  into a `[]Favorite`; it is proved to meet the contract, and the round trip
  through the file is proved of it. Reading an existing file and writing a
  file always succeed: operating-system faults are outside the model.
* The order in which a `range` over a Go map visits the keys is a parameter
  (`rangeOrder`), assumed only to visit every key once.
-/

/-- A well-formed Go string (valid UTF-8), as its sequence of code points. -/
abbrev GoString := List Char

/-- The tables of package `unicode` that `strings.ToLower` and
`strings.EqualFold` consult. -/
structure CaseTables where
  /-- The mapping `unicode.ToLower` on one code point. -/
  toLower : Char → Char
  /-- The representative of the orbit of a code point under
  `unicode.SimpleFold`: two code points are equal under simple case folding
  exactly when they have the same representative. -/
  foldKey : Char → Char

/-- Lower-casing of one ASCII code point; every other code point is kept. -/
def asciiLower (c : Char) : Char :=
  if 65 ≤ c.toNat ∧ c.toNat ≤ 90 then Char.ofNat (c.toNat + 32) else c

/-- The case tables on ASCII text. -/
def asciiTables : CaseTables where
  toLower := asciiLower
  foldKey := asciiLower

namespace unicode

/-- The predicate `unicode.IsSpace`: the code points with the Unicode
White_Space property. -/
def IsSpace (r : Char) : Bool :=
  let n := r.toNat
  (9 ≤ n && n ≤ 13) || n == 0x20 || n == 0x85 || n == 0xA0 || n == 0x1680 ||
    (0x2000 ≤ n && n ≤ 0x200A) || n == 0x2028 || n == 0x2029 || n == 0x202F ||
    n == 0x205F || n == 0x3000

end unicode

namespace strings

/-- The function `strings.ToLower`: every code point mapped to lower case. -/
def ToLower (U : CaseTables) (s : GoString) : GoString :=
  s.map U.toLower

/-- The function `strings.EqualFold`: equality under simple Unicode case
folding, code point by code point. -/
def EqualFold (U : CaseTables) (s t : GoString) : Bool :=
  decide (s.map U.foldKey = t.map U.foldKey)

/-- The function `strings.Contains`: whether `substr` occurs within `s`. -/
def Contains (s substr : GoString) : Bool :=
  decide (substr <:+: s)

/-- The function `strings.TrimSpace`: `s` without its leading and trailing
white space. -/
def TrimSpace (s : GoString) : GoString :=
  (s.dropWhile unicode.IsSpace).rdropWhile unicode.IsSpace

end strings

set_option linter.dupNamespace false

/-- The record type `Command` (declared with the same fields in the packages
`explain` and `search`). -/
structure Command where
  Keyword : GoString
  Command : GoString
  Description : GoString
  Example : GoString
  Category : GoString
deriving DecidableEq, Repr

/-- The type `Command` under the name the field `Command` does not shadow. -/
abbrev CommandRecord := Command

/-- The zero value of `Command`. -/
def zeroCommand : CommandRecord := ⟨[], [], [], [], []⟩

/-- A failure of `loadCommands`. -/
inductive LoadError where
  | getwd
  | unreadable
  | malformed
deriving DecidableEq, Repr

/-- The error `Explain` and `Search` return: the loader's error, wrapped. -/
structure DataError where
  cause : LoadError
deriving DecidableEq, Repr

namespace explain

/-- The result type `ExplainResult`. -/
structure ExplainResult where
  Command : CommandRecord
  Found : Bool
  Suggestions : List CommandRecord
deriving DecidableEq, Repr

/-- The zero value of `ExplainResult` (`var result ExplainResult`). -/
def zeroResult : ExplainResult := ⟨zeroCommand, false, []⟩

/-- The `for _, cmd := range commands` loop of `Explain`, on the records still
to visit, with the current values of `result` and `suggestions`. -/
def scan (U : CaseTables) (command : GoString) :
    List Command → ExplainResult → List Command → ExplainResult × List Command
  | [], result, suggestions => (result, suggestions)
  | cmd :: rest, result, suggestions =>
    if strings.EqualFold U cmd.Command command then
      -- result.Command = cmd; result.Found = true; break
      ({ result with Command := cmd, Found := true }, suggestions)
    else if strings.Contains (strings.ToLower U cmd.Command) (strings.ToLower U command) ||
        strings.Contains (strings.ToLower U cmd.Keyword) (strings.ToLower U command) then
      scan U command rest result (suggestions ++ [cmd])
    else
      scan U command rest result suggestions

/-- The function `Explain`. -/
def Explain (U : CaseTables) (loadCommands : Except LoadError (List Command))
    (command : GoString) : Except DataError ExplainResult :=
  match loadCommands with
  | .error err => .error ⟨err⟩
  | .ok commands =>
    let command := strings.TrimSpace command
    let out := scan U command commands zeroResult []
    -- result.Suggestions = suggestions
    .ok { out.1 with Suggestions := out.2 }

/-- The `for _, cmd := range commands` loop of `GetCommandByCategory`, on the
records still to visit, with the current value of `results`; `category` is
already lower-cased. -/
def categoryScan (U : CaseTables) (category : GoString) :
    List Command → List Command → List Command
  | [], results => results
  | cmd :: rest, results =>
    if strings.ToLower U cmd.Category = category then
      categoryScan U category rest (results ++ [cmd])
    else
      categoryScan U category rest results

/-- The function `GetCommandByCategory`. -/
def GetCommandByCategory (U : CaseTables) (loadCommands : Except LoadError (List Command))
    (category : GoString) : Except DataError (List Command) :=
  match loadCommands with
  | .error err => .error ⟨err⟩
  | .ok commands =>
    let category := strings.ToLower U category
    .ok (categoryScan U category commands [])

end explain

namespace search

/-- The result type `SearchResult`. -/
structure SearchResult where
  Commands : List Command
  Count : Int
deriving DecidableEq, Repr

/-- The `for _, cmd := range commands` loop of `Search`, on the records still
to visit, with the current value of `results`. -/
def scan (U : CaseTables) (keyword : GoString) : List Command → List Command → List Command
  | [], results => results
  | cmd :: rest, results =>
    if strings.Contains (strings.ToLower U cmd.Keyword) keyword ||
        strings.Contains (strings.ToLower U cmd.Command) keyword ||
        strings.Contains (strings.ToLower U cmd.Description) keyword ||
        strings.Contains (strings.ToLower U cmd.Category) keyword then
      scan U keyword rest (results ++ [cmd])
    else
      scan U keyword rest results

/-- The function `Search`. -/
def Search (U : CaseTables) (loadCommands : Except LoadError (List Command))
    (keyword : GoString) : Except DataError SearchResult :=
  match loadCommands with
  | .error err => .error ⟨err⟩
  | .ok commands =>
    let keyword := strings.ToLower U keyword
    let results := scan U keyword commands []
    .ok { Commands := results, Count := results.length }

/-- The `for _, cmd := range commands` loop of `SearchByCategory`, on the
records still to visit, with the current value of `results`; `category` is
already lower-cased. -/
def categoryScan (U : CaseTables) (category : GoString) :
    List Command → List Command → List Command
  | [], results => results
  | cmd :: rest, results =>
    if strings.ToLower U cmd.Category = category then
      categoryScan U category rest (results ++ [cmd])
    else
      categoryScan U category rest results

/-- The function `SearchByCategory`. -/
def SearchByCategory (U : CaseTables) (loadCommands : Except LoadError (List Command))
    (category : GoString) : Except DataError SearchResult :=
  match loadCommands with
  | .error err => .error ⟨err⟩
  | .ok commands =>
    let category := strings.ToLower U category
    let results := categoryScan U category commands []
    .ok { Commands := results, Count := results.length }

/-- The assignment `categoryMap[key] = true` on a `map[string]bool` whose
values are all `true`; the map is held as the list of its keys, each once. -/
def mapSet (categoryMap : List GoString) (key : GoString) : List GoString :=
  if key ∈ categoryMap then categoryMap else categoryMap ++ [key]

/-- The function `GetCategories`. Go leaves the order in which
`for category := range categoryMap` visits the keys unspecified: `rangeOrder`
gives, for the keys of a map, the order of the visit. -/
def GetCategories (rangeOrder : List GoString → List GoString)
    (loadCommands : Except LoadError (List Command)) : Except DataError (List GoString) :=
  match loadCommands with
  | .error err => .error ⟨err⟩
  | .ok commands =>
    let categoryMap := commands.foldl (fun m cmd => mapSet m cmd.Category) []
    let categories :=
      (rangeOrder categoryMap).foldl (fun categories category => categories ++ [category]) []
    .ok categories

end search

/-- One byte. -/
abbrev Byte := Fin 256

/-- A Go string as it is: a sequence of bytes, well-formed UTF-8 or not. The
arguments of the favorites store and the fields of its records. -/
abbrev ByteString := List Byte

/-- The byte with value `n` modulo 256. -/
def byte (n : Nat) : Byte := ⟨n % 256, Nat.mod_lt _ (by decide)⟩

namespace utf8

/-- The constant `utf8.RuneError`, U+FFFD. -/
def RuneError : Char := Char.ofNat 0xFFFD

/-- The function `utf8.AppendRune` on an empty buffer: the UTF-8 encoding of
one code point. -/
def EncodeRune (r : Char) : ByteString :=
  let n := r.toNat
  if n < 0x80 then [byte n]
  else if n < 0x800 then [byte (0xC0 + n / 64), byte (0x80 + n % 64)]
  else if n < 0x10000 then
    [byte (0xE0 + n / 4096), byte (0x80 + n / 64 % 64), byte (0x80 + n % 64)]
  else
    [byte (0xF0 + n / 262144), byte (0x80 + n / 4096 % 64), byte (0x80 + n / 64 % 64),
      byte (0x80 + n % 64)]

/-- Whether `b` is a continuation byte, 0x80 to 0xBF. -/
def isCont (b : Byte) : Bool := 0x80 ≤ b.val && b.val ≤ 0xBF

/-- The function `utf8.DecodeRune`: the code point at the head of `p` and the
number of bytes it takes; `(RuneError, 1)` when the head is not the encoding
of a code point, `(RuneError, 0)` when `p` is empty. -/
def DecodeRune (p : ByteString) : Char × Nat :=
  match p with
  | [] => (RuneError, 0)
  | b0 :: rest =>
    if b0.val < 0x80 then (Char.ofNat b0.val, 1)
    else if 0xC2 ≤ b0.val ∧ b0.val ≤ 0xDF then
      match rest with
      | b1 :: _ =>
        if isCont b1 then (Char.ofNat ((b0.val - 0xC0) * 64 + (b1.val - 0x80)), 2)
        else (RuneError, 1)
      | _ => (RuneError, 1)
    else if 0xE0 ≤ b0.val ∧ b0.val ≤ 0xEF then
      match rest with
      | b1 :: b2 :: _ =>
        if (if b0.val = 0xE0 then 0xA0 else 0x80) ≤ b1.val ∧
            b1.val ≤ (if b0.val = 0xED then 0x9F else 0xBF) ∧ isCont b2 then
          (Char.ofNat ((b0.val - 0xE0) * 4096 + (b1.val - 0x80) * 64 + (b2.val - 0x80)), 3)
        else (RuneError, 1)
      | _ => (RuneError, 1)
    else if 0xF0 ≤ b0.val ∧ b0.val ≤ 0xF4 then
      match rest with
      | b1 :: b2 :: b3 :: _ =>
        if (if b0.val = 0xF0 then 0x90 else 0x80) ≤ b1.val ∧
            b1.val ≤ (if b0.val = 0xF4 then 0x8F else 0xBF) ∧ isCont b2 ∧ isCont b3 then
          (Char.ofNat ((b0.val - 0xF0) * 262144 + (b1.val - 0x80) * 4096 +
            (b2.val - 0x80) * 64 + (b3.val - 0x80)), 4)
        else (RuneError, 1)
      | _ => (RuneError, 1)
    else (RuneError, 1)

/-- The code points a Go program reads from a string by repeated
`utf8.DecodeRune`, with `none` for each byte that is not part of the encoding
of a code point. `skip` bytes at the head belong to the code point read
before. -/
def decodeFrom : Nat → ByteString → List (Option Char)
  | _, [] => []
  | skip + 1, _ :: rest => decodeFrom skip rest
  | 0, b :: rest =>
    let out := DecodeRune (b :: rest)
    (if out.1 = RuneError ∧ out.2 = 1 then none else some out.1) ::
      decodeFrom (out.2 - 1) rest

/-- The code points of a string, `none` standing for each ill-formed byte. -/
def Decode (s : ByteString) : List (Option Char) :=
  decodeFrom 0 s

/-- The bytes of a well-formed string: the encodings of its code points, one
after the other. -/
def Bytes (s : GoString) : ByteString :=
  s.flatMap EncodeRune

/-- The string `encoding/json` writes for `s` and reads back: `s` with every
byte that is not part of the encoding of a code point replaced by the
encoding of U+FFFD. -/
def Coerce (s : ByteString) : ByteString :=
  (Decode s).flatMap (fun r => EncodeRune (r.getD RuneError))

/-- A string that is well-formed UTF-8: the bytes of a sequence of code
points. -/
def WellFormed (s : ByteString) : Prop :=
  ∃ text : GoString, s = Bytes text

end utf8

namespace favorites

/-- The record type `Favorite`. -/
structure Favorite where
  Command : ByteString
  Description : ByteString
  AddedAt : ByteString
deriving DecidableEq, Repr

/-- A favorite as `encoding/json` writes it and reads it back: every string
coerced to well-formed UTF-8. -/
def Favorite.coerce (fav : Favorite) : Favorite :=
  ⟨utf8.Coerce fav.Command, utf8.Coerce fav.Description, utf8.Coerce fav.AddedAt⟩

/-- A Go value of type `[]Favorite`: the nil slice, or a non-nil slice with
its elements. -/
inductive Slice where
  | nil
  | of (elems : List Favorite)
deriving DecidableEq, Repr

/-- The elements of a slice. -/
def Slice.elems : Slice → List Favorite
  | .nil => []
  | .of elems => elems

/-- The call `append(s, fav)`. -/
def Slice.append (s : Slice) (fav : Favorite) : Slice :=
  .of (s.elems ++ [fav])

/-- The two functions of `encoding/json` the store calls, on favorites
sequences; `Data` is what a file holds. `none` stands for a returned error. -/
structure JSON (Data : Type) where
  /-- The call `json.MarshalIndent(favorites, "", "  ")`. -/
  MarshalIndent : Slice → Option Data
  /-- The call `json.Unmarshal(data, &favorites)`: the elements of the slice
  it leaves in `favorites`. -/
  Unmarshal : Data → Option (List Favorite)

/-- The contract of `encoding/json` on slices of records of strings:
marshalling succeeds, unmarshalling the output gives the elements back with
every string coerced to well-formed UTF-8, and every string that
unmarshalling returns is well-formed UTF-8. -/
def JSON.Contract {Data : Type} (J : JSON Data) : Prop :=
  (∀ favorites : Slice, ∃ data, J.MarshalIndent favorites = some data ∧
    J.Unmarshal data = some (favorites.elems.map Favorite.coerce)) ∧
  (∀ data favorites, J.Unmarshal data = some favorites →
    favorites.map Favorite.coerce = favorites)

/-- A codec whose data is the sequence of coerced records itself: the
in-memory stand-in for `encoding/json` used to evaluate the store on concrete
inputs. -/
def memJSON : JSON (List Favorite) where
  MarshalIndent := fun favorites => some (favorites.elems.map Favorite.coerce)
  Unmarshal := fun data => some (data.map Favorite.coerce)

/-- The errors of the store, by the message that builds them. -/
inductive Error where
  /-- The message "이미 즐겨찾기에 추가된 명령어입니다: %s". -/
  | duplicate (command : ByteString)
  /-- The message "즐겨찾기에서 찾을 수 없는 명령어입니다: %s". -/
  | notFound (command : ByteString)
  /-- The message "즐겨찾기 파일 파싱 오류: %v". -/
  | parse
  /-- The message "즐겨찾기 저장 오류: %v". -/
  | marshal
deriving DecidableEq, Repr

/-- The function `getCurrentTime`. -/
def getCurrentTime : ByteString := utf8.Bytes "2024-01-01 12:00:00".toList

namespace FavoritesManager

/-- The method `loadFavorites`, on the state of the file at `fm.filePath`
(`none`: the file does not exist): the error, or the elements of the slice it
returns. -/
def loadFavorites {Data : Type} (J : JSON Data) (file : Option Data) :
    Except Error (List Favorite) :=
  match file with
  | none => .ok []
  | some data =>
    match J.Unmarshal data with
    | none => .error .parse
    | some favorites => .ok favorites

/-- The method `saveFavorites`: the returned error and the state of the file
afterwards. `ioutil.WriteFile` replaces the whole content. -/
def saveFavorites {Data : Type} (J : JSON Data) (favorites : Slice)
    (file : Option Data) : Option Error × Option Data :=
  match J.MarshalIndent favorites with
  | none => (some .marshal, file)
  | some data => (none, some data)

/-- The method `Add`: the returned error and the state of the file
afterwards. -/
def Add {Data : Type} (J : JSON Data) (command description : ByteString)
    (file : Option Data) : Option Error × Option Data :=
  match loadFavorites J file with
  | .error err => (some err, file)
  | .ok favorites =>
    if favorites.any (fun fav => decide (fav.Command = command)) then
      (some (.duplicate command), file)
    else
      let newFavorite : Favorite :=
        { Command := command, Description := description, AddedAt := getCurrentTime }
      saveFavorites J (.of (favorites ++ [newFavorite])) file

/-- The loop of `Remove`: `newFavorites`, which starts as the nil slice, and
`found` after visiting `favorites`. -/
def removeLoop (command : ByteString) (favorites : List Favorite) : Slice × Bool :=
  favorites.foldl
    (fun st fav =>
      if fav.Command ≠ command then (st.1.append fav, st.2) else (st.1, true))
    (.nil, false)

/-- The method `Remove`: the returned error and the state of the file
afterwards. -/
def Remove {Data : Type} (J : JSON Data) (command : ByteString)
    (file : Option Data) : Option Error × Option Data :=
  match loadFavorites J file with
  | .error err => (some err, file)
  | .ok favorites =>
    let out := removeLoop command favorites
    if !out.2 then
      (some (.notFound command), file)
    else
      saveFavorites J out.1 file

/-- The method `List`: the error, or the elements of the slice it returns. -/
def List {Data : Type} (J : JSON Data) (file : Option Data) :
    Except Error (List Favorite) :=
  loadFavorites J file

/-- The method `Clear`: the returned error and the state of the file
afterwards. -/
def Clear {Data : Type} (J : JSON Data) (file : Option Data) :
    Option Error × Option Data :=
  saveFavorites J (.of []) file

end FavoritesManager

/-- A call of one of the mutating methods of the store. -/
inductive Call where
  | add (command description : ByteString)
  | remove (command : ByteString)
  | clear
deriving DecidableEq, Repr

/-- The effect of one call: the returned error and the file afterwards. -/
def Call.run {Data : Type} (J : JSON Data) (call : Call) (file : Option Data) :
    Option Error × Option Data :=
  match call with
  | .add command description => FavoritesManager.Add J command description file
  | .remove command => FavoritesManager.Remove J command file
  | .clear => FavoritesManager.Clear J file

/-- The file after a sequence of calls, made one after the other. -/
def runCalls {Data : Type} (J : JSON Data) (calls : List Call) (file : Option Data) :
    Option Data :=
  calls.foldl (fun f call => (call.run J f).2) file

/-- The commands of a favorites sequence are pairwise distinct. -/
def UniqueCommands (favorites : List Favorite) : Prop :=
  (favorites.map (fun fav => fav.Command)).Nodup

/-- A call whose command, if it is an `Add`, is well-formed UTF-8: the bytes
of a sequence of code points. -/
def Call.WellFormed : Call → Prop
  | .add command _ => utf8.WellFormed command
  | .remove _ => True
  | .clear => True

end favorites

namespace cmd

end cmd

/-! ## The package `encoding/json`, as the favorites store uses it

`MarshalIndent` is the text the encoder writes for a `[]Favorite` (HTML
escaping on, `\b` and `\f` written as such as from Go 1.22; earlier releases
write `\u0008` and `\u000c`, which read back the same). `Unmarshal` is the
decoder for any document, into a `[]Favorite` that starts nil. -/

namespace json

/-- A JSON document as the decoder reads it: the code points of its bytes,
`none` standing for each byte that is not part of the encoding of a code
point. -/
abbrev Input := List (Option Char)

/-- A JSON value, as far as decoding into `[]Favorite` tells values apart. -/
inductive Value where
  | null
  | bool
  | number
  | string (s : GoString)
  | array (elems : List Value)
  | object (members : List (GoString × Value))

/-- The hexadecimal digit of `n`, lower case (`hex[n]` in the encoder). -/
def hexDigit (n : Nat) : Char :=
  Char.ofNat (if n < 10 then 48 + n else 87 + n)

/-- The escape the encoder writes for one code point of a string (`none`: a
byte that is not part of the encoding of a code point), HTML escaping on. -/
def escapeRune (r : Option Char) : GoString :=
  match r with
  | none => ['\\', 'u', 'f', 'f', 'f', 'd']
  | some c =>
    if c.toNat < 0x80 then
      if c = '\\' ∨ c = '"' then ['\\', c]
      else if c.toNat = 8 then ['\\', 'b']
      else if c.toNat = 12 then ['\\', 'f']
      else if c = '\n' then ['\\', 'n']
      else if c = '\r' then ['\\', 'r']
      else if c = '\t' then ['\\', 't']
      else if c.toNat < 0x20 ∨ c = '<' ∨ c = '>' ∨ c = '&' then
        ['\\', 'u', '0', '0', hexDigit (c.toNat / 16), hexDigit (c.toNat % 16)]
      else [c]
    else if c.toNat = 0x2028 ∨ c.toNat = 0x2029 then
      ['\\', 'u', '2', '0', '2', hexDigit (c.toNat % 16)]
    else [c]

/-- The JSON string the encoder writes for a Go string. -/
def quote (s : ByteString) : GoString :=
  '"' :: ((utf8.Decode s).flatMap escapeRune ++ ['"'])

/-- The text of one record inside the array, from its opening brace to its
closing brace. -/
def printObject (fav : favorites.Favorite) : GoString :=
  "\x7b\n    \"command\": ".toList ++ quote fav.Command ++
    ",\n    \"description\": ".toList ++ quote fav.Description ++
    ",\n    \"added_at\": ".toList ++ quote fav.AddedAt ++ "\n  \x7d".toList

/-- The records of a non-empty array from the opening brace of the first to
the closing brace of the last, with the commas, line breaks and indentation
between them. -/
def printElements : List favorites.Favorite → GoString
  | [] => []
  | [fav] => printObject fav
  | fav :: rest => printObject fav ++ ",\n  ".toList ++ printElements rest

/-- The text `json.MarshalIndent(favorites, "", "  ")` writes: `null` for the
nil slice, `[]` for an empty one, else the records one below the other. -/
def print : favorites.Slice → GoString
  | .nil => "null".toList
  | .of [] => "[]".toList
  | .of (fav :: rest) => "[\n  ".toList ++ printElements (fav :: rest) ++ "\n]".toList

/-- The white space of JSON. -/
def isSpace (c : Char) : Bool :=
  c = ' ' || c = '\t' || c = '\r' || c = '\n'

/-- The input after its leading white space. -/
def skipSpace : Input → Input
  | some c :: rest => if isSpace c then skipSpace rest else some c :: rest
  | input => input

/-- The value of a hexadecimal digit, of either case. -/
def hexValue (c : Char) : Option Nat :=
  let n := c.toNat
  if 48 ≤ n ∧ n ≤ 57 then some (n - 48)
  else if 97 ≤ n ∧ n ≤ 102 then some (n - 87)
  else if 65 ≤ n ∧ n ≤ 70 then some (n - 55)
  else none

/-- Four hexadecimal digits at the head of the input: their value and the
rest. -/
def hex4 : Input → Option (Nat × Input)
  | some a :: some b :: some c :: some d :: rest =>
    match hexValue a, hexValue b, hexValue c, hexValue d with
    | some a, some b, some c, some d => some (((a * 16 + b) * 16 + c) * 16 + d, rest)
    | _, _, _, _ => none
  | _ => none

/-- One step of the decoder inside a string, the head not being the closing
quote: the code point the head of the input stands for, and the rest. A byte
that is not part of an encoding reads as U+FFFD, and so does a `\u` escape of
a surrogate that is not the first of a pair. -/
def unquoteStep : Input → Option (Char × Input)
  | [] => none
  | none :: rest => some (utf8.RuneError, rest)
  | some c :: rest =>
    if c = '\\' then
      match rest with
      | some e :: rest =>
        if e = '"' ∨ e = '\\' ∨ e = '/' then some (e, rest)
        else if e = 'b' then some (Char.ofNat 8, rest)
        else if e = 'f' then some (Char.ofNat 12, rest)
        else if e = 'n' then some ('\n', rest)
        else if e = 'r' then some ('\r', rest)
        else if e = 't' then some ('\t', rest)
        else if e = 'u' then
          match hex4 rest with
          | none => none
          | some (n, rest) =>
            if 0xD800 ≤ n ∧ n < 0xE000 then
              match rest with
              | some b :: some u :: rest' =>
                if b = '\\' ∧ u = 'u' then
                  match hex4 rest' with
                  | some (m, rest'') =>
                    if n < 0xDC00 ∧ 0xDC00 ≤ m ∧ m < 0xE000 then
                      some (Char.ofNat ((n - 0xD800) * 1024 + (m - 0xDC00) + 0x10000), rest'')
                    else some (utf8.RuneError, rest)
                  | none => some (utf8.RuneError, rest)
                else some (utf8.RuneError, rest)
              | _ => some (utf8.RuneError, rest)
            else some (Char.ofNat n, rest)
        else none
      | _ => none
    else if c.toNat < 0x20 then none
    else some (c, rest)

/-- The string whose opening quote has been read: its code points and the
input after its closing quote. `fuel` bounds the number of steps. -/
def parseStringAux : Nat → Input → Option (GoString × Input)
  | 0, _ => none
  | fuel + 1, input =>
    match input with
    | some c :: rest =>
      if c = '"' then some ([], rest)
      else
        match unquoteStep input with
        | none => none
        | some (r, rest) =>
          match parseStringAux fuel rest with
          | none => none
          | some (s, rest) => some (r :: s, rest)
    | _ =>
      match unquoteStep input with
      | none => none
      | some (r, rest) =>
        match parseStringAux fuel rest with
        | none => none
        | some (s, rest) => some (r :: s, rest)

/-- The string whose opening quote has been read. -/
def parseString (input : Input) : Option (GoString × Input) :=
  parseStringAux (input.length + 1) input

/-- Whether `c` is a decimal digit. -/
def isDigit (c : Char) : Bool :=
  48 ≤ c.toNat && c.toNat ≤ 57

/-- The input after its leading digits. -/
def skipDigits : Input → Input
  | some c :: rest => if isDigit c then skipDigits rest else some c :: rest
  | input => input

/-- The input after one digit or more; `none` when it does not start with a
digit. -/
def digits1 : Input → Option Input
  | some c :: rest => if isDigit c then some (skipDigits rest) else none
  | _ => none

/-- The input after the optional fraction and exponent of a number. -/
def afterInt (input : Input) : Option Input :=
  let afterFrac : Option Input :=
    match input with
    | some c :: rest => if c = '.' then digits1 rest else some input
    | _ => some input
  match afterFrac with
  | none => none
  | some input =>
    match input with
    | some c :: rest =>
      if c = 'e' ∨ c = 'E' then
        match rest with
        | some s :: rest' => if s = '+' ∨ s = '-' then digits1 rest' else digits1 rest
        | _ => none
      else some input
    | _ => some input

/-- The input after a number; `none` when it does not start with one. -/
def parseNumber (input : Input) : Option Input :=
  let input :=
    match input with
    | some c :: rest => if c = '-' then rest else input
    | _ => input
  match input with
  | some c :: rest =>
    if c = '0' then afterInt rest
    else if isDigit c then afterInt (skipDigits rest)
    else none
  | _ => none

/-- The input after the literal `name`; `none` when it does not start with
it. -/
def parseLiteral (name : GoString) (input : Input) : Option Input :=
  if input.take name.length = name.map some then some (input.drop name.length) else none

/-- The deepest nesting of arrays and objects the decoder accepts. -/
def maxNestingDepth : Nat := 10000

mutual

/-- The value at the head of the input, white space skipped, and the input
after it. `depth` counts the arrays and objects the value lies in; `fuel`
bounds the number of steps. -/
def parseValue : Nat → Nat → Input → Option (Value × Input)
  | 0, _, _ => none
  | fuel + 1, depth, input =>
    match input with
    | some c :: rest =>
      if c = '"' then
        match parseString rest with
        | none => none
        | some (s, rest) => some (.string s, rest)
      else if c = '[' then
        if maxNestingDepth ≤ depth then none
        else
          match skipSpace rest with
          | some d :: rest' =>
            if d = ']' then some (.array [], rest')
            else
              match parseElements fuel (depth + 1) (some d :: rest') with
              | none => none
              | some (elems, rest) => some (.array elems, rest)
          | _ => none
      else if c = '{' then
        if maxNestingDepth ≤ depth then none
        else
          match skipSpace rest with
          | some d :: rest' =>
            if d = '}' then some (.object [], rest')
            else
              match parseMembers fuel (depth + 1) (some d :: rest') with
              | none => none
              | some (members, rest) => some (.object members, rest)
          | _ => none
      else if c = 't' then
        match parseLiteral "true".toList input with
        | none => none
        | some rest => some (.bool, rest)
      else if c = 'f' then
        match parseLiteral "false".toList input with
        | none => none
        | some rest => some (.bool, rest)
      else if c = 'n' then
        match parseLiteral "null".toList input with
        | none => none
        | some rest => some (.null, rest)
      else
        match parseNumber input with
        | none => none
        | some rest => some (.number, rest)
    | _ => none

/-- The elements of an array from the head of one of them on, and the input
after the closing bracket. -/
def parseElements : Nat → Nat → Input → Option (List Value × Input)
  | 0, _, _ => none
  | fuel + 1, depth, input =>
    match parseValue fuel depth input with
    | none => none
    | some (v, rest) =>
      match skipSpace rest with
      | some c :: rest' =>
        if c = ',' then
          match parseElements fuel depth (skipSpace rest') with
          | none => none
          | some (elems, rest) => some (v :: elems, rest)
        else if c = ']' then some ([v], rest')
        else none
      | _ => none

/-- The members of an object from the opening quote of the key of one of them
on, and the input after the closing brace. -/
def parseMembers : Nat → Nat → Input → Option (List (GoString × Value) × Input)
  | 0, _, _ => none
  | fuel + 1, depth, input =>
    match input with
    | some q :: rest =>
      if q = '"' then
        match parseString rest with
        | none => none
        | some (key, rest) =>
          match skipSpace rest with
          | some c :: rest' =>
            if c = ':' then
              match parseValue fuel depth (skipSpace rest') with
              | none => none
              | some (v, rest) =>
                match skipSpace rest with
                | some e :: rest' =>
                  if e = ',' then
                    match parseMembers fuel depth (skipSpace rest') with
                    | none => none
                    | some (members, rest) => some ((key, v) :: members, rest)
                  else if e = '}' then some ([(key, v)], rest')
                  else none
                | _ => none
            else none
          | _ => none
      else none
    | _ => none

end

/-- The one value a document holds, white space around it allowed. -/
def parse (input : Input) : Option Value :=
  match parseValue (input.length + 1) 0 (skipSpace input) with
  | none => none
  | some (v, rest) => if skipSpace rest = [] then some v else none

/-- Whether the code point `r` of a key equals the lower-case ASCII code
point `target` of a field name under simple case folding. -/
def foldsTo (target r : Char) : Bool :=
  r = target || (97 ≤ target.toNat && target.toNat ≤ 122 && r.toNat + 32 = target.toNat) ||
    (target = 'k' && r.toNat = 0x212A) || (target = 's' && r.toNat = 0x17F)

/-- Whether a key equals a field name under simple case folding. -/
def equalFoldName : GoString → GoString → Bool
  | [], [] => true
  | t :: name, r :: key => foldsTo t r && equalFoldName name key
  | _, _ => false

/-- The fields of `Favorite`, by their JSON names. -/
inductive Field where
  | command
  | description
  | addedAt
deriving DecidableEq, Repr

/-- The field a key of an object is decoded into: the one with that JSON
name, else the one whose JSON name equals the key under case folding. -/
def field (key : GoString) : Option Field :=
  if key = "command".toList then some .command
  else if key = "description".toList then some .description
  else if key = "added_at".toList then some .addedAt
  else if equalFoldName "command".toList key then some .command
  else if equalFoldName "description".toList key then some .description
  else if equalFoldName "added_at".toList key then some .addedAt
  else none

/-- A record whose strings are given by their code points. -/
structure TextFavorite where
  Command : GoString
  Description : GoString
  AddedAt : GoString
deriving DecidableEq, Repr

/-- The record with the bytes of the strings. -/
def TextFavorite.bytes (fav : TextFavorite) : favorites.Favorite :=
  ⟨utf8.Bytes fav.Command, utf8.Bytes fav.Description, utf8.Bytes fav.AddedAt⟩

/-- The record after decoding one member of an object into it; `none` for a
value that is neither a string nor `null` in a field of the record. -/
def setMember (fav : TextFavorite) (member : GoString × Value) : Option TextFavorite :=
  match field member.1 with
  | none => some fav
  | some f =>
    match member.2 with
    | .string s =>
      match f with
      | .command => some { fav with Command := s }
      | .description => some { fav with Description := s }
      | .addedAt => some { fav with AddedAt := s }
    | .null => some fav
    | _ => none

/-- The members of an object decoded into a record, one after the other. -/
def setMembers : TextFavorite → List (GoString × Value) → Option TextFavorite
  | fav, [] => some fav
  | fav, member :: rest =>
    match setMember fav member with
    | none => none
    | some fav => setMembers fav rest

/-- An element of the array decoded into a `Favorite`, starting from the zero
value. -/
def toFavorite : Value → Option TextFavorite
  | .null => some ⟨[], [], []⟩
  | .object members => setMembers ⟨[], [], []⟩ members
  | _ => none

/-- The elements of the array decoded one after the other. -/
def toFavorites : List Value → Option (List TextFavorite)
  | [] => some []
  | v :: rest =>
    match toFavorite v, toFavorites rest with
    | some fav, some favs => some (fav :: favs)
    | _, _ => none

/-- The call `json.Unmarshal(data, &favorites)` with `favorites` a nil
`[]Favorite`: the elements of the slice it leaves, `none` for an error. -/
def Unmarshal (data : ByteString) : Option (List favorites.Favorite) :=
  match parse (utf8.Decode data) with
  | some .null => some []
  | some (.array elems) =>
    match toFavorites elems with
    | none => none
    | some favs => some (favs.map TextFavorite.bytes)
  | _ => none

/-- The code points `encoding/json` reads back for a string it wrote: those
of the string, U+FFFD standing for each byte that is not part of the encoding
of a code point. -/
def runes (s : ByteString) : GoString :=
  (utf8.Decode s).map (fun r => r.getD utf8.RuneError)

/-- The value the decoder reads for a record the encoder wrote. -/
def objectValue (fav : favorites.Favorite) : Value :=
  .object [("command".toList, .string (runes fav.Command)),
    ("description".toList, .string (runes fav.Description)),
    ("added_at".toList, .string (runes fav.AddedAt))]

/-- The call `json.MarshalIndent(favorites, "", "  ")`. -/
def MarshalIndent (favorites : favorites.Slice) : ByteString :=
  utf8.Bytes (print favorites)

end json

/-- The package `encoding/json`, as the store uses it. -/
def goJSON : favorites.JSON ByteString where
  MarshalIndent := fun favorites => some (json.MarshalIndent favorites)
  Unmarshal := json.Unmarshal

/-! ## Concrete inputs -/

/-- A two-record catalog in which the command of the second record occurs
within the command of the first. -/
def wqCatalog : List Command :=
  [⟨"save and quit".toList, ":wq".toList, "write the file and quit".toList,
      ":wq".toList, "file".toList⟩,
   ⟨"save".toList, ":w".toList, "write the file".toList, ":w".toList, "file".toList⟩]

/-- A record whose command ends in a space. -/
def ddRecord : Command :=
  ⟨"delete line".toList, "dd ".toList, "delete the current line".toList,
    "dd".toList, "delete".toList⟩

/-- A favorite for the command ":wq". -/
def wqFavorite : favorites.Favorite :=
  ⟨utf8.Bytes ":wq".toList, utf8.Bytes "save and quit".toList, favorites.getCurrentTime⟩

/-- A favorite for the command "dd". -/
def ddFavorite : favorites.Favorite :=
  ⟨utf8.Bytes "dd".toList, utf8.Bytes "delete line".toList, favorites.getCurrentTime⟩

/-- A catalog with records of two categories, "file" and "delete". -/
def mixedCatalog : List Command :=
  wqCatalog ++ [ddRecord]

/-- The string "\xff": one byte, which is not the encoding of a code point. -/
def illFormed : ByteString := [byte 0xFF]

/-! ## Lemmas on the loops -/

section Loops

variable (U : CaseTables)

theorem contains_iff (s substr : GoString) :
    strings.Contains s substr = true ↔ substr <:+: s := by
  simp [strings.Contains]

theorem equalFold_iff (s t : GoString) :
    strings.EqualFold U s t = true ↔ s.map U.foldKey = t.map U.foldKey := by
  simp [strings.EqualFold]

theorem equalFold_symm (s t : GoString) :
    strings.EqualFold U s t = strings.EqualFold U t s := by
  simp only [strings.EqualFold, eq_comm]

theorem equalFold_trans {s t u : GoString} (h₁ : strings.EqualFold U s t = true)
    (h₂ : strings.EqualFold U t u = true) : strings.EqualFold U s u = true := by
  rw [equalFold_iff] at *
  exact h₁.trans h₂

/-- The test that makes a record a suggestion, as a proposition. -/
theorem suggestion_test (command : GoString) (cmd : Command) :
    (strings.Contains (strings.ToLower U cmd.Command) (strings.ToLower U command) ||
      strings.Contains (strings.ToLower U cmd.Keyword) (strings.ToLower U command)) =
    decide (strings.ToLower U command <:+: strings.ToLower U cmd.Command ∨
      strings.ToLower U command <:+: strings.ToLower U cmd.Keyword) := by
  simp [strings.Contains, Bool.decide_or]

/-- A list either has no element satisfying `p`, or splits at the first one. -/
theorem first_split {α : Type} (p : α → Bool) (l : List α) :
    (∀ x ∈ l, p x = false) ∨
    ∃ pre m post, l = pre ++ m :: post ∧ (∀ x ∈ pre, p x = false) ∧ p m = true ∧
      l.find? p = some m := by
  induction l with
  | nil => left; simp
  | cons a l ih =>
    by_cases ha : p a = true
    · right
      exact ⟨[], a, l, rfl, by simp, ha, by simp [List.find?, ha]⟩
    · have ha' : p a = false := by simpa using ha
      rcases ih with h | ⟨pre, m, post, hl, hpre, hm, hfind⟩
      · left
        intro x hx
        rcases List.mem_cons.mp hx with rfl | hx
        · exact ha'
        · exact h x hx
      · right
        refine ⟨a :: pre, m, post, by simp [hl], ?_, hm, by simp [List.find?, ha', hfind]⟩
        intro x hx
        rcases List.mem_cons.mp hx with rfl | hx
        · exact ha'
        · exact hpre x hx

/-- The loop of `Explain` over records none of which is an exact match. -/
theorem explain_scan_none (command : GoString) (l : List Command)
    (r : explain.ExplainResult) (acc : List Command)
    (h : ∀ x ∈ l, strings.EqualFold U x.Command command = false) :
    explain.scan U command l r acc =
      (r, acc ++ l.filter (fun cmd =>
        decide (strings.ToLower U command <:+: strings.ToLower U cmd.Command ∨
          strings.ToLower U command <:+: strings.ToLower U cmd.Keyword))) := by
  induction l generalizing acc with
  | nil => simp [explain.scan]
  | cons a l ih =>
    have ha := h a (List.mem_cons_self _ _)
    have hl : ∀ x ∈ l, strings.EqualFold U x.Command command = false :=
      fun x hx => h x (List.mem_cons_of_mem _ hx)
    rw [explain.scan]
    simp only [ha, Bool.false_eq_true, if_false]
    rw [suggestion_test]
    by_cases hs : (strings.ToLower U command <:+: strings.ToLower U a.Command ∨
          strings.ToLower U command <:+: strings.ToLower U a.Keyword)
    · simp [hs, ih _ hl]
    · simp [hs, ih _ hl]

/-- The loop of `Explain` over records the first exact match of which is `m`. -/
theorem explain_scan_found (command : GoString) (pre : List Command) (m : Command)
    (post : List Command) (r : explain.ExplainResult) (acc : List Command)
    (hpre : ∀ x ∈ pre, strings.EqualFold U x.Command command = false)
    (hm : strings.EqualFold U m.Command command = true) :
    explain.scan U command (pre ++ m :: post) r acc =
      ({ r with Command := m, Found := true }, acc ++ pre.filter (fun cmd =>
        decide (strings.ToLower U command <:+: strings.ToLower U cmd.Command ∨
          strings.ToLower U command <:+: strings.ToLower U cmd.Keyword))) := by
  induction pre generalizing acc with
  | nil => simp [explain.scan, hm]
  | cons a pre ih =>
    have ha := hpre a (List.mem_cons_self _ _)
    have hl : ∀ x ∈ pre, strings.EqualFold U x.Command command = false :=
      fun x hx => hpre x (List.mem_cons_of_mem _ hx)
    rw [List.cons_append, explain.scan]
    simp only [ha, Bool.false_eq_true, if_false]
    rw [suggestion_test]
    by_cases hs : (strings.ToLower U command <:+: strings.ToLower U a.Command ∨
          strings.ToLower U command <:+: strings.ToLower U a.Keyword)
    · simp [hs, ih _ hl]
    · simp [hs, ih _ hl]

/-- The loop of `Search` appends the matching records, in order. -/
theorem search_scan_eq (keyword : GoString) (l acc : List Command) :
    search.scan U keyword l acc =
      acc ++ l.filter (fun cmd =>
        decide (keyword <:+: strings.ToLower U cmd.Keyword ∨
          keyword <:+: strings.ToLower U cmd.Command ∨
          keyword <:+: strings.ToLower U cmd.Description ∨
          keyword <:+: strings.ToLower U cmd.Category)) := by
  induction l generalizing acc with
  | nil => simp [search.scan]
  | cons a l ih =>
    rw [search.scan]
    by_cases hs : (keyword <:+: strings.ToLower U a.Keyword ∨
          keyword <:+: strings.ToLower U a.Command ∨
          keyword <:+: strings.ToLower U a.Description ∨
          keyword <:+: strings.ToLower U a.Category)
    · have : (strings.Contains (strings.ToLower U a.Keyword) keyword ||
        strings.Contains (strings.ToLower U a.Command) keyword ||
        strings.Contains (strings.ToLower U a.Description) keyword ||
        strings.Contains (strings.ToLower U a.Category) keyword) = true := by
        simpa [strings.Contains, or_assoc] using hs
      simp [this, hs, ih]
    · have : (strings.Contains (strings.ToLower U a.Keyword) keyword ||
        strings.Contains (strings.ToLower U a.Command) keyword ||
        strings.Contains (strings.ToLower U a.Description) keyword ||
        strings.Contains (strings.ToLower U a.Category) keyword) = false := by
        rw [← Bool.not_eq_true]
        simpa [strings.Contains, or_assoc] using hs
      simp [this, hs, ih]

end Loops

/-! ## Exact lookup and keyword search -/

/-- C1 (amended): for every catalog and query `c`, `Explain(c)` returns
`Found = true` exactly when some record's command equals the trimmed `c`
under case-insensitive comparison, and then the returned `Command` is the
first such record in catalog order; in a catalog whose commands are unique
under case-insensitive comparison, a query whose trimmed form is a
case-variation of an entry's command returns that very entry. -/
theorem explain_exact_match (U : CaseTables) (catalog : List Command) (c : GoString) :
    ∃ r, explain.Explain U (.ok catalog) c = .ok r ∧
      (r.Found = true ↔
        ∃ cmd ∈ catalog, strings.EqualFold U cmd.Command (strings.TrimSpace c) = true) ∧
      (r.Found = true →
        catalog.find? (fun cmd => strings.EqualFold U cmd.Command (strings.TrimSpace c)) =
          some r.Command) ∧
      (catalog.Pairwise (fun a b => strings.EqualFold U a.Command b.Command = false) →
        ∀ e ∈ catalog, strings.EqualFold U e.Command (strings.TrimSpace c) = true →
          r.Found = true ∧ r.Command = e) := by
  rcases first_split (fun cmd => strings.EqualFold U cmd.Command (strings.TrimSpace c))
    catalog with h | ⟨pre, m, post, hl, hpre, hm, hfind⟩
  · refine ⟨_, rfl, ?_, ?_, ?_⟩
    · simp only [explain_scan_none U _ catalog _ _ h, explain.zeroResult]
      constructor
      · intro hf; simp at hf
      · rintro ⟨cmd, hcmd, he⟩
        rw [h cmd hcmd] at he
        simp at he
    · simp [explain_scan_none U _ catalog _ _ h, explain.zeroResult]
    · intro _ e he hfold
      rw [h e he] at hfold
      simp at hfold
  · subst hl
    refine ⟨_, rfl, ?_, ?_, ?_⟩
    · simp only [explain_scan_found U _ pre m post _ _ hpre hm, true_iff]
      exact ⟨m, by simp, hm⟩
    · intro _
      simp only [explain_scan_found U _ pre m post _ _ hpre hm]
      exact hfind
    · intro huniq e he hfold
      simp only [explain_scan_found U _ pre m post _ _ hpre hm, true_and]
      rw [List.pairwise_append] at huniq
      obtain ⟨_, hmpost, hcross⟩ := huniq
      rcases List.mem_append.mp he with hin | hin
      · rw [hpre e hin] at hfold
        simp at hfold
      · rcases List.mem_cons.mp hin with rfl | hin
        · rfl
        · have hne := (List.pairwise_cons.mp hmpost).1 e hin
          have : strings.EqualFold U m.Command e.Command = true :=
            equalFold_trans U hm (by rw [equalFold_symm]; exact hfold)
          rw [this] at hne
          simp at hne

/-- C1 (counterexample): the one-record catalog `[ddRecord]` has unique
commands and the query "DD " is a case-variation of the command "dd " of its
record, yet `Explain` trims the query to "DD" and returns `Found = false`. -/
theorem explain_case_variation_counterexample :
    [ddRecord].Pairwise (fun a b => strings.EqualFold asciiTables a.Command b.Command = false) ∧
    strings.EqualFold asciiTables ddRecord.Command "DD ".toList = true ∧
    explain.Explain asciiTables (.ok [ddRecord]) "DD ".toList =
      .ok ⟨zeroCommand, false, [ddRecord]⟩ :=
  ⟨List.pairwise_singleton _ _, rfl, rfl⟩

/-- C2: for every catalog and keyword `k`, `Search(k).Commands` is the catalog
filtered by "lower-cased `k` is a substring of the lower-cased keyword,
command, description or category": a record of the catalog is in the result
if and only if it satisfies this, and the result keeps catalog order. -/
theorem search_eq_filter (U : CaseTables) (catalog : List Command) (k : GoString) :
    ∃ r, search.Search U (.ok catalog) k = .ok r ∧
      r.Commands = catalog.filter (fun cmd =>
        decide (strings.ToLower U k <:+: strings.ToLower U cmd.Keyword ∨
          strings.ToLower U k <:+: strings.ToLower U cmd.Command ∨
          strings.ToLower U k <:+: strings.ToLower U cmd.Description ∨
          strings.ToLower U k <:+: strings.ToLower U cmd.Category)) ∧
      (∀ cmd ∈ catalog, cmd ∈ r.Commands ↔
        (strings.ToLower U k <:+: strings.ToLower U cmd.Keyword ∨
          strings.ToLower U k <:+: strings.ToLower U cmd.Command ∨
          strings.ToLower U k <:+: strings.ToLower U cmd.Description ∨
          strings.ToLower U k <:+: strings.ToLower U cmd.Category)) ∧
      r.Commands.Sublist catalog := by
  refine ⟨_, rfl, ?_, ?_, ?_⟩
  · simp [search_scan_eq]
  · intro cmd hcmd
    simp [search_scan_eq, List.mem_filter, hcmd]
  · simp only [search_scan_eq, List.nil_append]
    exact List.filter_sublist _

/-- C3: when no record's command equals the trimmed `c` case-insensitively,
`Explain(c)` returns `Found = false` and its suggestions are exactly the
catalog records for which the lower-cased trimmed `c` is a substring of the
lower-cased command or keyword, in catalog order. -/
theorem explain_suggestions (U : CaseTables) (catalog : List Command) (c : GoString)
    (h : ∀ cmd ∈ catalog, strings.EqualFold U cmd.Command (strings.TrimSpace c) = false) :
    explain.Explain U (.ok catalog) c =
      .ok ⟨zeroCommand, false, catalog.filter (fun cmd =>
        decide (strings.ToLower U (strings.TrimSpace c) <:+: strings.ToLower U cmd.Command ∨
          strings.ToLower U (strings.TrimSpace c) <:+: strings.ToLower U cmd.Keyword))⟩ := by
  simp [explain.Explain, explain_scan_none U _ catalog _ _ h, explain.zeroResult]

/-- C3 (witness): the query " W" on `wqCatalog` has no exact match and gets
both records as suggestions. -/
theorem explain_suggestions_witness :
    explain.Explain asciiTables (.ok wqCatalog) " W".toList =
      .ok ⟨zeroCommand, false, wqCatalog⟩ :=
  (explain_suggestions asciiTables wqCatalog " W".toList (by decide)).trans rfl

/-- C4 (amended): whenever `Explain(c)` returns `Found = true`, its
suggestions are exactly the records that stand before the exact match in the
catalog and have the lower-cased trimmed `c` as a substring of their
lower-cased command or keyword; records after the match are not visited. -/
theorem explain_found_suggestions (U : CaseTables) (catalog : List Command) (c : GoString)
    (r : explain.ExplainResult) (h : explain.Explain U (.ok catalog) c = .ok r)
    (hf : r.Found = true) :
    ∃ pre post, catalog = pre ++ r.Command :: post ∧
      (∀ x ∈ pre, strings.EqualFold U x.Command (strings.TrimSpace c) = false) ∧
      r.Suggestions = pre.filter (fun cmd =>
        decide (strings.ToLower U (strings.TrimSpace c) <:+: strings.ToLower U cmd.Command ∨
          strings.ToLower U (strings.TrimSpace c) <:+: strings.ToLower U cmd.Keyword)) := by
  rcases first_split (fun cmd => strings.EqualFold U cmd.Command (strings.TrimSpace c))
    catalog with hn | ⟨pre, m, post, hl, hpre, hm, _⟩
  · simp only [explain.Explain, explain_scan_none U _ catalog _ _ hn] at h
    cases h
    simp [explain.zeroResult] at hf
  · subst hl
    simp only [explain.Explain, explain_scan_found U _ pre m post _ _ hpre hm,
      List.nil_append] at h
    cases h
    exact ⟨pre, post, rfl, hpre, rfl⟩

/-- C4 (witness): the query ":w" on `wqCatalog` finds the second record, and
the suggestions are the records before it that contain ":w". -/
theorem explain_found_suggestions_witness :
    ∃ pre post, wqCatalog = pre ++ wqCatalog[1] :: post ∧
      (∀ x ∈ pre,
        strings.EqualFold asciiTables x.Command (strings.TrimSpace ":w".toList) = false) ∧
      [wqCatalog[0]] = pre.filter (fun cmd =>
        decide (strings.ToLower asciiTables (strings.TrimSpace ":w".toList) <:+:
            strings.ToLower asciiTables cmd.Command ∨
          strings.ToLower asciiTables (strings.TrimSpace ":w".toList) <:+:
            strings.ToLower asciiTables cmd.Keyword)) :=
  explain_found_suggestions asciiTables wqCatalog ":w".toList
    ⟨wqCatalog[1], true, [wqCatalog[0]]⟩ rfl rfl

/-- C4 (counterexample): on `wqCatalog` the query ":w" is an exact match of
the second record, and the result carries the first record as a suggestion. -/
theorem explain_found_with_suggestions_counterexample :
    explain.Explain asciiTables (.ok wqCatalog) ":w".toList =
      .ok ⟨wqCatalog[1], true, [wqCatalog[0]]⟩ :=
  rfl

/-! ## Lemmas on UTF-8 -/

section Utf8

theorem encodeRune_cases (c : Char) :
    (c.toNat < 0x80 ∧ utf8.EncodeRune c = [byte c.toNat]) ∨
    (0x80 ≤ c.toNat ∧ ∃ b tail, utf8.EncodeRune c = b :: tail ∧ tail ≠ []) := by
  unfold utf8.EncodeRune
  simp only
  split
  · exact Or.inl ⟨by assumption, rfl⟩
  · right
    refine ⟨by omega, ?_⟩
    split
    · exact ⟨_, _, rfl, by simp⟩
    · split
      · exact ⟨_, _, rfl, by simp⟩
      · exact ⟨_, _, rfl, by simp⟩

/-- Decoding reads back an encoded code point, whatever follows it. -/
theorem decodeRune_encodeRune (c : Char) (rest : ByteString) :
    utf8.DecodeRune (utf8.EncodeRune c ++ rest) = (c, (utf8.EncodeRune c).length) := by
  have hv : c.toNat < 0xD800 ∨ (0xDFFF < c.toNat ∧ c.toNat < 0x110000) := c.valid
  have hc := Char.ofNat_toNat c
  unfold utf8.EncodeRune
  simp only
  split
  · rename_i h
    simp only [List.cons_append, List.nil_append, utf8.DecodeRune, byte]
    have : c.toNat % 256 = c.toNat := by omega
    simp [this, h, hc]
  · split
    · simp only [List.cons_append, List.nil_append, utf8.DecodeRune, byte, utf8.isCont]
      have e0 : (0xC0 + c.toNat / 64) % 256 = 0xC0 + c.toNat / 64 := by omega
      have e1 : (0x80 + c.toNat % 64) % 256 = 0x80 + c.toNat % 64 := by omega
      have e2 : (0xC0 + c.toNat / 64 - 0xC0) * 64 + (0x80 + c.toNat % 64 - 0x80) =
          c.toNat := by omega
      simp only [e0, e1, e2, hc]
      rw [if_neg (by omega), if_pos (by omega)]
      simp
      omega
    · split
      · simp only [List.cons_append, List.nil_append, utf8.DecodeRune, byte, utf8.isCont]
        have e0 : (0xE0 + c.toNat / 4096) % 256 = 0xE0 + c.toNat / 4096 := by omega
        have e1 : (0x80 + c.toNat / 64 % 64) % 256 = 0x80 + c.toNat / 64 % 64 := by omega
        have e2 : (0x80 + c.toNat % 64) % 256 = 0x80 + c.toNat % 64 := by omega
        have e3 : (0xE0 + c.toNat / 4096 - 0xE0) * 4096 +
            (0x80 + c.toNat / 64 % 64 - 0x80) * 64 +
            (0x80 + c.toNat % 64 - 0x80) = c.toNat := by omega
        simp only [e0, e1, e2, e3, hc]
        rw [if_neg (by omega), if_neg (by omega), if_pos (by omega), if_pos]
        · simp
        · refine ⟨?_, ?_, ?_⟩
          · split <;> omega
          · split <;> omega
          · simp
            omega
      · simp only [List.cons_append, List.nil_append, utf8.DecodeRune, byte, utf8.isCont]
        have e0 : (0xF0 + c.toNat / 262144) % 256 = 0xF0 + c.toNat / 262144 := by omega
        have e1 : (0x80 + c.toNat / 4096 % 64) % 256 = 0x80 + c.toNat / 4096 % 64 := by
          omega
        have e2 : (0x80 + c.toNat / 64 % 64) % 256 = 0x80 + c.toNat / 64 % 64 := by omega
        have e3 : (0x80 + c.toNat % 64) % 256 = 0x80 + c.toNat % 64 := by omega
        have e4 : (0xF0 + c.toNat / 262144 - 0xF0) * 262144 +
            (0x80 + c.toNat / 4096 % 64 - 0x80) * 4096 +
            (0x80 + c.toNat / 64 % 64 - 0x80) * 64 + (0x80 + c.toNat % 64 - 0x80) =
            c.toNat := by omega
        simp only [e0, e1, e2, e3, e4, hc]
        rw [if_neg (by omega), if_neg (by omega), if_neg (by omega), if_pos (by omega),
          if_pos]
        · simp
        · refine ⟨?_, ?_, ?_, ?_⟩
          · split <;> omega
          · split <;> omega
          · simp
            omega
          · simp
            omega

/-- Bytes that belong to the code point read before are passed over. -/
theorem decodeFrom_skip (pre rest : ByteString) :
    utf8.decodeFrom pre.length (pre ++ rest) = utf8.decodeFrom 0 rest := by
  induction pre with
  | nil => rfl
  | cons b pre ih => simpa [utf8.decodeFrom] using ih

/-- Decoding a string that starts with an encoded code point. -/
theorem decode_encodeRune_append (c : Char) (rest : ByteString) :
    utf8.Decode (utf8.EncodeRune c ++ rest) = some c :: utf8.Decode rest := by
  have hdec := decodeRune_encodeRune c rest
  rcases encodeRune_cases c with ⟨hlt, henc⟩ | ⟨hge, b, tail, henc, htail⟩
  · rw [henc] at hdec ⊢
    have hne : c ≠ utf8.RuneError := by
      intro h
      rw [h] at hlt
      revert hlt
      decide
    simp only [List.cons_append, List.nil_append] at hdec ⊢
    simp [utf8.Decode, utf8.decodeFrom, hdec, hne]
  · rw [henc] at hdec ⊢
    have hlen : (b :: tail).length ≠ 1 := by
      cases tail with
      | nil => exact absurd rfl htail
      | cons t ts => simp
    simp only [List.cons_append] at hdec ⊢
    simp only [utf8.Decode, utf8.decodeFrom, hdec]
    rw [if_neg (fun h => hlen h.2)]
    have := decodeFrom_skip tail rest
    simpa using this

/-- Decoding the bytes of a sequence of code points gives the code points. -/
theorem decode_bytes (text : GoString) :
    utf8.Decode (utf8.Bytes text) = text.map some := by
  induction text with
  | nil => rfl
  | cons c text ih =>
    have : utf8.Bytes (c :: text) = utf8.EncodeRune c ++ utf8.Bytes text := by
      simp [utf8.Bytes]
    rw [this, decode_encodeRune_append, ih]
    rfl

/-- A well-formed string is written and read back by `encoding/json` as it
is. -/
theorem coerce_bytes (text : GoString) : utf8.Coerce (utf8.Bytes text) = utf8.Bytes text := by
  rw [utf8.Coerce, decode_bytes]
  simp [utf8.Bytes, List.flatMap_map]

theorem coerce_wellFormed (s : ByteString) (h : utf8.WellFormed s) : utf8.Coerce s = s := by
  obtain ⟨text, rfl⟩ := h
  exact coerce_bytes text

/-- What `encoding/json` writes for a string is well-formed. -/
theorem wellFormed_coerce (s : ByteString) : utf8.WellFormed (utf8.Coerce s) :=
  ⟨(utf8.Decode s).map (fun r => r.getD utf8.RuneError), by
    simp [utf8.Coerce, utf8.Bytes, List.flatMap_map]⟩

theorem coerce_idem (s : ByteString) : utf8.Coerce (utf8.Coerce s) = utf8.Coerce s :=
  coerce_wellFormed _ (wellFormed_coerce s)

end Utf8

/-! ## Lemmas on the favorites store -/

section Store

open favorites

variable {Data : Type} (J : JSON Data)

theorem favorite_coerce_idem (fav : Favorite) : fav.coerce.coerce = fav.coerce := by
  simp [Favorite.coerce, coerce_idem]

theorem map_coerce_idem (favs : List Favorite) :
    (favs.map Favorite.coerce).map Favorite.coerce = favs.map Favorite.coerce := by
  simp [favorite_coerce_idem]

theorem getCurrentTime_coerce : utf8.Coerce getCurrentTime = getCurrentTime :=
  coerce_bytes _

theorem memJSON_contract : memJSON.Contract :=
  ⟨fun favs => ⟨favs.elems.map Favorite.coerce, rfl, by simp [memJSON, favorite_coerce_idem]⟩,
    fun data favs h => by
      simp only [memJSON, Option.some.injEq] at h
      rw [← h]
      exact map_coerce_idem data⟩

/-- Under the contract of `encoding/json`, saving succeeds and the saved file
loads as the saved elements, every string coerced to well-formed UTF-8. -/
theorem save_then_load (hJ : J.Contract) (favs : Slice) (file : Option Data) :
    ∃ data, FavoritesManager.saveFavorites J favs file = (none, some data) ∧
      FavoritesManager.loadFavorites J (some data) =
        .ok (favs.elems.map Favorite.coerce) := by
  obtain ⟨data, hm, hu⟩ := hJ.1 favs
  exact ⟨data, by simp [FavoritesManager.saveFavorites, hm],
    by simp [FavoritesManager.loadFavorites, hu]⟩

/-- Under the contract of `encoding/json`, the strings of a loaded store are
well-formed UTF-8. -/
theorem loaded_coerced (hJ : J.Contract) (file : Option Data) (favs : List Favorite)
    (hload : FavoritesManager.loadFavorites J file = .ok favs) :
    favs.map Favorite.coerce = favs := by
  cases file with
  | none =>
    simp only [FavoritesManager.loadFavorites] at hload
    cases hload
    rfl
  | some data =>
    simp only [FavoritesManager.loadFavorites] at hload
    split at hload
    · cases hload
    · rename_i favs' hu
      cases hload
      exact hJ.2 data favs hu

theorem map_coerce_filter (favs : List Favorite) (p : Favorite → Bool)
    (h : favs.map Favorite.coerce = favs) :
    (favs.filter p).map Favorite.coerce = favs.filter p := by
  induction favs with
  | nil => rfl
  | cons a favs ih =>
    simp only [List.map_cons, List.cons.injEq] at h
    by_cases hp : p a = true
    · simp [List.filter_cons, hp, h.1, ih h.2]
    · simp [List.filter_cons, hp, ih h.2]

theorem any_command_iff (favs : List Favorite) (x : ByteString) :
    favs.any (fun fav => decide (fav.Command = x)) = true ↔
      ∃ fav ∈ favs, fav.Command = x := by
  simp [List.any_eq_true]

theorem removeLoop_foldl (x : ByteString) (favs : List Favorite) (acc : Slice)
    (found : Bool) :
    ((favs.foldl
      (fun st fav => if fav.Command ≠ x then (st.1.append fav, st.2) else (st.1, true))
      (acc, found)).1.elems =
      acc.elems ++ favs.filter (fun fav => decide (fav.Command ≠ x))) ∧
    ((favs.foldl
      (fun st fav => if fav.Command ≠ x then (st.1.append fav, st.2) else (st.1, true))
      (acc, found)).2 =
      (found || favs.any (fun fav => decide (fav.Command = x)))) := by
  induction favs generalizing acc found with
  | nil => simp
  | cons a favs ih =>
    rw [List.foldl_cons]
    by_cases ha : a.Command = x
    · rw [if_neg (not_not.mpr ha)]
      obtain ⟨h1, h2⟩ := ih acc true
      rw [h1, h2]
      simp [ha]
    · rw [if_pos ha]
      obtain ⟨h1, h2⟩ := ih (acc.append a) found
      rw [h1, h2]
      simp [ha, Slice.append, Slice.elems]

/-- The loop of `Remove` keeps the entries with another command, in order,
and reports whether some entry had the command. -/
theorem removeLoop_eq (x : ByteString) (favs : List Favorite) :
    (FavoritesManager.removeLoop x favs).1.elems =
      favs.filter (fun fav => decide (fav.Command ≠ x)) ∧
    (FavoritesManager.removeLoop x favs).2 =
      favs.any (fun fav => decide (fav.Command = x)) := by
  have h := removeLoop_foldl x favs .nil false
  simpa [FavoritesManager.removeLoop, Slice.elems] using h

/-- What `Add` does on a store that loads as `favs` and holds the command. -/
theorem add_of_mem (x d : ByteString) (file : Option Data) (favs : List Favorite)
    (hload : FavoritesManager.loadFavorites J file = .ok favs)
    (hx : ∃ fav ∈ favs, fav.Command = x) :
    FavoritesManager.Add J x d file = (some (.duplicate x), file) := by
  have := (any_command_iff favs x).mpr hx
  simp [FavoritesManager.Add, hload, this]

/-- What `Add` does on a store that loads as `favs` and lacks the command. -/
theorem add_of_not_mem (x d : ByteString) (file : Option Data) (favs : List Favorite)
    (hload : FavoritesManager.loadFavorites J file = .ok favs)
    (hx : ∀ fav ∈ favs, fav.Command ≠ x) :
    FavoritesManager.Add J x d file =
      FavoritesManager.saveFavorites J (.of (favs ++ [⟨x, d, getCurrentTime⟩])) file := by
  have : favs.any (fun fav => decide (fav.Command = x)) = false := by
    rw [← Bool.not_eq_true, any_command_iff]
    rintro ⟨fav, hfav, he⟩
    exact hx fav hfav he
  simp [FavoritesManager.Add, hload, this]

/-- What `Remove` does on a store that loads as `favs` and holds the command. -/
theorem remove_of_mem (x : ByteString) (file : Option Data) (favs : List Favorite)
    (hload : FavoritesManager.loadFavorites J file = .ok favs)
    (hx : ∃ fav ∈ favs, fav.Command = x) :
    FavoritesManager.Remove J x file =
      FavoritesManager.saveFavorites J (FavoritesManager.removeLoop x favs).1 file := by
  have := (any_command_iff favs x).mpr hx
  simp [FavoritesManager.Remove, hload, (removeLoop_eq x favs).2, this]

/-- What `Remove` does on a store that loads as `favs` and lacks the command. -/
theorem remove_of_not_mem (x : ByteString) (file : Option Data) (favs : List Favorite)
    (hload : FavoritesManager.loadFavorites J file = .ok favs)
    (hx : ∀ fav ∈ favs, fav.Command ≠ x) :
    FavoritesManager.Remove J x file = (some (.notFound x), file) := by
  have : favs.any (fun fav => decide (fav.Command = x)) = false := by
    rw [← Bool.not_eq_true, any_command_iff]
    rintro ⟨fav, hfav, he⟩
    exact hx fav hfav he
  simp [FavoritesManager.Remove, hload, (removeLoop_eq x favs).2, this]

/-- Under the contract of `encoding/json`, `Add` on a store that loads as
`favs` and lacks the command succeeds, and the store then loads as `favs`
followed by the new entry with its strings coerced to well-formed UTF-8. -/
theorem add_then_load (hJ : J.Contract) (x d : ByteString) (file : Option Data)
    (favs : List Favorite) (hload : FavoritesManager.loadFavorites J file = .ok favs)
    (hx : ∀ fav ∈ favs, fav.Command ≠ x) :
    ∃ data, FavoritesManager.Add J x d file = (none, some data) ∧
      FavoritesManager.loadFavorites J (some data) =
        .ok (favs ++ [⟨utf8.Coerce x, utf8.Coerce d, getCurrentTime⟩]) := by
  obtain ⟨data, hsave, hload'⟩ :=
    save_then_load J hJ (.of (favs ++ [⟨x, d, getCurrentTime⟩])) file
  refine ⟨data, by rw [add_of_not_mem J x d file favs hload hx, hsave], ?_⟩
  rw [hload']
  simp [Slice.elems, loaded_coerced J hJ file favs hload, Favorite.coerce,
    getCurrentTime_coerce]

/-- Under the contract of `encoding/json`, `Remove` on a store that loads as
`favs` and holds the command succeeds, and the store then loads as the
entries of `favs` with another command. -/
theorem remove_then_load (hJ : J.Contract) (x : ByteString) (file : Option Data)
    (favs : List Favorite) (hload : FavoritesManager.loadFavorites J file = .ok favs)
    (hx : ∃ fav ∈ favs, fav.Command = x) :
    ∃ data, FavoritesManager.Remove J x file = (none, some data) ∧
      FavoritesManager.loadFavorites J (some data) =
        .ok (favs.filter (fun fav => decide (fav.Command ≠ x))) := by
  obtain ⟨data, hsave, hload'⟩ :=
    save_then_load J hJ (FavoritesManager.removeLoop x favs).1 file
  refine ⟨data, by rw [remove_of_mem J x file favs hload hx, hsave], ?_⟩
  rw [hload', (removeLoop_eq x favs).1,
    map_coerce_filter favs _ (loaded_coerced J hJ file favs hload)]

theorem filter_command_append_new (favs : List Favorite) (x d t : ByteString)
    (hx : ∀ fav ∈ favs, fav.Command ≠ x) :
    (favs ++ [(⟨x, d, t⟩ : Favorite)]).filter (fun fav => decide (fav.Command = x)) =
      [⟨x, d, t⟩] := by
  have : favs.filter (fun fav => decide (fav.Command = x)) = [] := by
    rw [List.filter_eq_nil_iff]
    intro fav hfav
    simpa using hx fav hfav
  simp [List.filter_append, this]

theorem uniqueCommands_append_new (favs : List Favorite) (x d t : ByteString)
    (hu : UniqueCommands favs) (hx : ∀ fav ∈ favs, fav.Command ≠ x) :
    UniqueCommands (favs ++ [⟨x, d, t⟩]) := by
  unfold UniqueCommands at *
  rw [List.map_append, List.nodup_append]
  refine ⟨hu, by simp, ?_⟩
  intro a ha hb
  simp only [List.map_cons, List.map_nil, List.mem_singleton] at hb
  obtain ⟨fav, hfav, rfl⟩ := List.mem_map.mp ha
  exact hx fav hfav hb

theorem uniqueCommands_filter (favs : List Favorite) (p : Favorite → Bool)
    (hu : UniqueCommands favs) : UniqueCommands (favs.filter p) := by
  unfold UniqueCommands at *
  exact hu.sublist ((List.filter_sublist favs).map _)

end Store

/-! ## Lemmas on the JSON codec -/

section Codec

theorem char_eq_of_toNat {c d : Char} (h : c.toNat = d.toNat) : c = d := by
  rw [← Char.ofNat_toNat c, ← Char.ofNat_toNat d, h]

theorem char_toNat_ne {c d : Char} (h : c ≠ d) : c.toNat ≠ d.toNat :=
  fun e => h (char_eq_of_toNat e)

theorem hexValue_hexDigit (k : Nat) (h : k < 16) : json.hexValue (json.hexDigit k) = some k := by
  interval_cases k <;> rfl

theorem hex4_digits (a b c d : Nat) (ha : a < 16) (hb : b < 16) (hc : c < 16) (hd : d < 16)
    (tail : json.Input) :
    json.hex4 (some (json.hexDigit a) :: some (json.hexDigit b) :: some (json.hexDigit c) ::
      some (json.hexDigit d) :: tail) = some (((a * 16 + b) * 16 + c) * 16 + d, tail) := by
  simp only [json.hex4, hexValue_hexDigit a ha, hexValue_hexDigit b hb, hexValue_hexDigit c hc,
    hexValue_hexDigit d hd]

/-- The decoder reads a `\u` escape of four digits that is not a surrogate as
the code point of that value. -/
theorem unquoteStep_hex (a b c d : Nat) (ha : a < 16) (hb : b < 16) (hc : c < 16)
    (hd : d < 16) (tail : json.Input)
    (hns : ¬(0xD800 ≤ ((a * 16 + b) * 16 + c) * 16 + d ∧
      ((a * 16 + b) * 16 + c) * 16 + d < 0xE000)) :
    json.unquoteStep (some '\\' :: some 'u' :: some (json.hexDigit a) ::
      some (json.hexDigit b) :: some (json.hexDigit c) :: some (json.hexDigit d) :: tail) =
      some (Char.ofNat (((a * 16 + b) * 16 + c) * 16 + d), tail) := by
  have e1 : ¬('u' = '"' ∨ 'u' = '\\' ∨ 'u' = '/') := by decide
  have e2 : ¬('u' = 'b') := by decide
  have e3 : ¬('u' = 'f') := by decide
  have e4 : ¬('u' = 'n') := by decide
  have e5 : ¬('u' = 'r') := by decide
  have e6 : ¬('u' = 't') := by decide
  simp only [json.unquoteStep, if_true, if_neg e1, if_neg e2, if_neg e3, if_neg e4, if_neg e5,
    if_neg e6, hex4_digits a b c d ha hb hc hd, if_neg hns]

/-- The decoder reads back the escape of one code point. -/
theorem unquoteStep_escapeRune (p : Option Char) (tail : json.Input) :
    json.unquoteStep ((json.escapeRune p).map some ++ tail) =
      some (p.getD utf8.RuneError, tail) := by
  cases p with
  | none =>
    exact unquoteStep_hex 15 15 15 13 (by decide) (by decide) (by decide) (by decide) tail
      (by decide)
  | some c =>
    have hc := Char.ofNat_toNat c
    simp only [json.escapeRune, Option.getD_some]
    split
    · rename_i hlt
      split
      · rename_i h
        rcases h with rfl | rfl <;> simp [json.unquoteStep]
      · rename_i hq
        split
        · rename_i h8
          have : c = Char.ofNat 8 := char_eq_of_toNat (by rw [h8]; rfl)
          subst this
          simp [json.unquoteStep]
        · split
          · rename_i h12
            have : c = Char.ofNat 12 := char_eq_of_toNat (by rw [h12]; rfl)
            subst this
            simp [json.unquoteStep]
          · split
            · rename_i h; subst h; simp [json.unquoteStep]
            · split
              · rename_i h; subst h; simp [json.unquoteStep]
              · split
                · rename_i h; subst h; simp [json.unquoteStep]
                · split
                  · have h := unquoteStep_hex 0 0 (c.toNat / 16) (c.toNat % 16) (by decide)
                      (by decide) (by omega) (by omega) tail (by omega)
                    have hv : ((0 * 16 + 0) * 16 + c.toNat / 16) * 16 + c.toNat % 16 =
                        c.toNat := by omega
                    rw [hv, hc] at h
                    exact h
                  · rename_i hn8 hn12 hnn hnr hnt hesc
                    have hbs : c ≠ '\\' := fun h => hq (Or.inl h)
                    have h20 : ¬ c.toNat < 0x20 := fun h => hesc (Or.inl h)
                    simp [json.unquoteStep, hbs, h20]
    · rename_i hge
      split
      · rename_i h
        have h' := unquoteStep_hex 2 0 2 (c.toNat % 16) (by decide) (by decide) (by decide)
          (by omega) tail (by omega)
        have hv : ((2 * 16 + 0) * 16 + 2) * 16 + c.toNat % 16 = c.toNat := by omega
        rw [hv, hc] at h'
        exact h'
      · have hbs : c ≠ '\\' := by
          intro h
          rw [h] at hge
          exact hge (by decide)
        have h20 : ¬ c.toNat < 0x20 := by omega
        simp [json.unquoteStep, hbs, h20]

theorem escapeRune_head (p : Option Char) :
    ∃ c rest, json.escapeRune p = c :: rest ∧ (c = '"' → False) := by
  cases p with
  | none => exact ⟨_, _, rfl, by decide⟩
  | some c =>
    simp only [json.escapeRune]
    split
    · split
      · exact ⟨_, _, rfl, by decide⟩
      · rename_i hq
        split
        · exact ⟨_, _, rfl, by decide⟩
        · split
          · exact ⟨_, _, rfl, by decide⟩
          · split
            · exact ⟨_, _, rfl, by decide⟩
            · split
              · exact ⟨_, _, rfl, by decide⟩
              · split
                · exact ⟨_, _, rfl, by decide⟩
                · split
                  · exact ⟨_, _, rfl, by decide⟩
                  · exact ⟨_, _, rfl, fun h => hq (Or.inr h)⟩
    · rename_i hge
      split
      · exact ⟨_, _, rfl, by decide⟩
      · refine ⟨_, _, rfl, ?_⟩
        intro h
        rw [h] at hge
        exact hge (by decide)

/-- The decoder reads back the escapes of a sequence of code points up to the
closing quote. -/
theorem parseStringAux_escaped (ps : List (Option Char)) (tail : json.Input) (fuel : Nat)
    (hfuel : ps.length < fuel) :
    json.parseStringAux fuel ((ps.flatMap json.escapeRune).map some ++ some '"' :: tail) =
      some (ps.map (fun r => r.getD utf8.RuneError), tail) := by
  induction ps generalizing fuel with
  | nil =>
    obtain ⟨fuel, rfl⟩ : ∃ k, fuel = k + 1 := ⟨fuel - 1, by simp at hfuel; omega⟩
    simp [json.parseStringAux]
  | cons p ps ih =>
    obtain ⟨fuel, rfl⟩ : ∃ k, fuel = k + 1 := ⟨fuel - 1, by simp at hfuel; omega⟩
    have hlen : ps.length < fuel := by simp at hfuel; omega
    obtain ⟨c, rest, hesc, hq⟩ := escapeRune_head p
    have hstep := unquoteStep_escapeRune p
      ((ps.flatMap json.escapeRune).map some ++ some '"' :: tail)
    have hin : ((p :: ps).flatMap json.escapeRune).map some ++ some '"' :: tail =
        (json.escapeRune p).map some ++
          ((ps.flatMap json.escapeRune).map some ++ some '"' :: tail) := by
      simp
    rw [hin]
    rw [hesc] at hstep ⊢
    simp only [List.map_cons, List.cons_append] at hstep ⊢
    rw [json.parseStringAux]
    have hq' : ¬ c = '"' := hq
    simp only [if_neg hq', hstep, ih fuel hlen, List.map_cons]

theorem escaped_length (ps : List (Option Char)) :
    ps.length ≤ (ps.flatMap json.escapeRune).length := by
  induction ps with
  | nil => simp
  | cons p ps ih =>
    obtain ⟨c, rest, hesc, _⟩ := escapeRune_head p
    simp only [List.flatMap_cons, List.length_append, hesc, List.length_cons]
    omega

/-- The decoder reads back a string the encoder wrote, its opening quote
read: the code points of the string, U+FFFD standing for each ill-formed
byte. -/
theorem parseString_quote (s : ByteString) (tail : json.Input) :
    json.parseString ((json.quote s).tail.map some ++ tail) =
      some ((utf8.Decode s).map (fun r => r.getD utf8.RuneError), tail) := by
  have h : (json.quote s).tail.map some ++ tail =
      ((utf8.Decode s).flatMap json.escapeRune).map some ++ some '"' :: tail := by
    simp [json.quote]
  rw [h, json.parseString]
  apply parseStringAux_escaped
  have := escaped_length (utf8.Decode s)
  simp only [List.length_append, List.length_map, List.length_cons]
  omega

/-- The code points `encoding/json` reads back for a string. -/
theorem parseString_escaped (ps : List (Option Char)) (tail : json.Input) :
    json.parseString ((ps.flatMap json.escapeRune).map some ++ some '"' :: tail) =
      some (ps.map (fun r => r.getD utf8.RuneError), tail) := by
  rw [json.parseString]
  apply parseStringAux_escaped
  have := escaped_length ps
  simp only [List.length_append, List.length_map, List.length_cons]
  omega

theorem parseString_key (key : GoString)
    (hkey : (key.map some).flatMap json.escapeRune = key) (X : json.Input) :
    json.parseString (key.map some ++ some '"' :: X) = some (key, X) := by
  have h := parseString_escaped (key.map some) X
  rw [hkey, List.map_map] at h
  have hid : (fun r : Option Char => r.getD utf8.RuneError) ∘ some = id := rfl
  rw [hid, List.map_id] at h
  exact h

theorem parseString_command (X : json.Input) :
    json.parseString (some 'c' :: some 'o' :: some 'm' :: some 'm' :: some 'a' :: some 'n' ::
      some 'd' :: some '"' :: X) = some ("command".toList, X) := by
  simpa using parseString_key "command".toList rfl X

theorem parseString_description (X : json.Input) :
    json.parseString (some 'd' :: some 'e' :: some 's' :: some 'c' :: some 'r' :: some 'i' ::
      some 'p' :: some 't' :: some 'i' :: some 'o' :: some 'n' :: some '"' :: X) =
      some ("description".toList, X) := by
  simpa using parseString_key "description".toList rfl X

theorem parseString_added_at (X : json.Input) :
    json.parseString (some 'a' :: some 'd' :: some 'd' :: some 'e' :: some 'd' :: some '_' ::
      some 'a' :: some 't' :: some '"' :: X) = some ("added_at".toList, X) := by
  simpa using parseString_key "added_at".toList rfl X

/-- The decoder reads a string the encoder wrote as a string value. -/
theorem parseValue_quote (s : ByteString) (X : json.Input) (fuel depth : Nat) :
    json.parseValue (fuel + 1) depth ((json.quote s).map some ++ X) =
      some (.string (json.runes s), X) := by
  have h : (json.quote s).map some ++ X =
      some '"' :: (((utf8.Decode s).flatMap json.escapeRune).map some ++ some '"' :: X) := by
    simp [json.quote]
  rw [h, json.parseValue]
  simp only [if_true, parseString_escaped]
  rfl

theorem skipSpace_quote (s : ByteString) (X : json.Input) :
    json.skipSpace ((json.quote s).map some ++ X) = (json.quote s).map some ++ X := by
  have h : (json.quote s).map some ++ X =
      some '"' :: (((utf8.Decode s).flatMap json.escapeRune).map some ++ some '"' :: X) := by
    simp [json.quote]
  rw [h, json.skipSpace]
  simp [json.isSpace]

theorem parseValue_printObject (fav : favorites.Favorite) (X : json.Input) (fuel depth : Nat)
    (hd : depth < json.maxNestingDepth) :
    json.parseValue (fuel + 5) depth ((json.printObject fav).map some ++ X) =
      some (json.objectValue fav, X) := by
  have hd' : ¬ json.maxNestingDepth ≤ depth := by omega
  have h : (json.printObject fav).map some ++ X =
      some '{' :: some '\n' :: some ' ' :: some ' ' :: some ' ' :: some ' ' :: some '"' ::
      some 'c' :: some 'o' :: some 'm' :: some 'm' :: some 'a' :: some 'n' ::
      some 'd' :: some '"' :: some ':' :: some ' ' :: ((json.quote fav.Command).map some ++
      (some ',' :: some '\n' :: some ' ' :: some ' ' :: some ' ' :: some ' ' :: some '"' ::
      some 'd' :: some 'e' :: some 's' :: some 'c' :: some 'r' :: some 'i' ::
      some 'p' :: some 't' :: some 'i' :: some 'o' :: some 'n' :: some '"' :: some ':' ::
      some ' ' :: ((json.quote fav.Description).map some ++
      (some ',' :: some '\n' :: some ' ' :: some ' ' :: some ' ' :: some ' ' :: some '"' ::
      some 'a' :: some 'd' :: some 'd' :: some 'e' :: some 'd' :: some '_' ::
      some 'a' :: some 't' :: some '"' :: some ':' :: some ' ' ::
      ((json.quote fav.AddedAt).map some ++
      (some '\n' :: some ' ' :: some ' ' :: some '}' :: X)))))) := by
    simp [json.printObject]
  rw [h]
  simp [json.parseValue, json.parseMembers, json.skipSpace, json.isSpace, hd',
    parseString_command, parseString_description, parseString_added_at,
    skipSpace_quote, parseValue_quote, json.objectValue, parseString_escaped, json.runes]


theorem printElements_length (fav : favorites.Favorite) (rest : List favorites.Favorite) :
    rest.length + 1 ≤ (json.printElements (fav :: rest)).length := by
  induction rest generalizing fav with
  | nil => simp [json.printElements, json.printObject]
  | cons g gs ih =>
    have := ih g
    have hsep : ",\n  ".toList.length = 4 := rfl
    rw [json.printElements]
    · simp only [List.length_append, List.length_cons, hsep] at this ⊢
      omega
    · simp

/-- The decoder reads the records the encoder wrote, from the first opening
brace to the closing bracket of the array. -/
theorem parseElements_printElements (rest : List favorites.Favorite)
    (fav : favorites.Favorite) (X : json.Input) (fuel depth : Nat)
    (hd : depth < json.maxNestingDepth) (hfuel : rest.length + 6 ≤ fuel) :
    json.parseElements fuel depth
        ((json.printElements (fav :: rest)).map some ++ some '\n' :: some ']' :: X) =
      some ((fav :: rest).map json.objectValue, X) := by
  induction rest generalizing fav fuel with
  | nil =>
    obtain ⟨k, rfl⟩ : ∃ k, fuel = k + 6 := ⟨fuel - 6, by simp at hfuel; omega⟩
    rw [json.parseElements]
    simp [json.printElements, parseValue_printObject fav _ k depth hd, json.skipSpace,
      json.isSpace]
  | cons g gs ih =>
    obtain ⟨k, rfl⟩ : ∃ k, fuel = k + 6 := ⟨fuel - 6, by simp at hfuel; omega⟩
    have hk : gs.length + 6 ≤ k + 5 := by simp at hfuel; omega
    have hin : (json.printElements (fav :: g :: gs)).map some ++ some '\n' :: some ']' :: X =
        (json.printObject fav).map some ++ (some ',' :: some '\n' :: some ' ' :: some ' ' ::
          ((json.printElements (g :: gs)).map some ++ some '\n' :: some ']' :: X)) := by
      simp [json.printElements]
    have hsk : json.skipSpace (some '\n' :: some ' ' :: some ' ' ::
        ((json.printElements (g :: gs)).map some ++ some '\n' :: some ']' :: X)) =
        (json.printElements (g :: gs)).map some ++ some '\n' :: some ']' :: X := by
      cases gs with
      | nil => simp [json.printElements, json.printObject, json.skipSpace, json.isSpace]
      | cons g' gs' => simp [json.printElements, json.printObject, json.skipSpace, json.isSpace]
    rw [hin, json.parseElements]
    simp only [parseValue_printObject fav _ k depth hd]
    simp only [json.skipSpace, json.isSpace]
    simp [hsk, ih g (k + 5) hk]

/-- The string `encoding/json` stores for `s` is the bytes of the code points
it reads back. -/
theorem coerce_eq_bytes_runes (s : ByteString) : utf8.Coerce s = utf8.Bytes (json.runes s) := by
  simp [utf8.Coerce, utf8.Bytes, json.runes, List.flatMap_map]

/-- The record the decoder builds from the value of a record the encoder
wrote. -/
theorem toFavorite_objectValue (fav : favorites.Favorite) :
    json.toFavorite (json.objectValue fav) =
      some ⟨json.runes fav.Command, json.runes fav.Description, json.runes fav.AddedAt⟩ := by
  simp [json.toFavorite, json.objectValue, json.setMembers, json.setMember, json.field]

theorem toFavorites_objectValues (favs : List favorites.Favorite) :
    json.toFavorites (favs.map json.objectValue) =
      some (favs.map (fun fav =>
        ⟨json.runes fav.Command, json.runes fav.Description, json.runes fav.AddedAt⟩)) := by
  induction favs with
  | nil => rfl
  | cons fav favs ih =>
    simp only [List.map_cons, json.toFavorites, toFavorite_objectValue, ih]

theorem printElements_head (fav : favorites.Favorite) (rest : List favorites.Favorite)
    (X : json.Input) :
    ∃ tl, (json.printElements (fav :: rest)).map some ++ X = some '{' :: tl := by
  cases rest with
  | nil => exact ⟨_, by simp [json.printElements, json.printObject]; rfl⟩
  | cons g gs => exact ⟨_, by simp [json.printElements, json.printObject]; rfl⟩

/-- The decoder reads a non-empty array the encoder wrote. -/
theorem parseValue_array (fav : favorites.Favorite) (rest : List favorites.Favorite)
    (X : json.Input) (fuel : Nat) (hfuel : rest.length + 7 ≤ fuel) :
    json.parseValue fuel 0 (some '[' :: some '\n' :: some ' ' :: some ' ' ::
        ((json.printElements (fav :: rest)).map some ++ some '\n' :: some ']' :: X)) =
      some (.array ((fav :: rest).map json.objectValue), X) := by
  obtain ⟨k, rfl⟩ : ∃ k, fuel = k + 1 := ⟨fuel - 1, by omega⟩
  have hel := parseElements_printElements rest fav X k 1 (by decide) (by omega)
  obtain ⟨tl, htl⟩ := printElements_head fav rest (some '\n' :: some ']' :: X)
  rw [htl] at hel ⊢
  have h0 : ¬ json.maxNestingDepth ≤ 0 := by decide
  have hb : ¬ ('{' = ']') := by decide
  have e1 : ¬ ('[' = '"') := by decide
  have hsk : json.skipSpace (some '\n' :: some ' ' :: some ' ' :: some '{' :: tl) =
      some '{' :: tl := by
    simp [json.skipSpace, json.isSpace]
  rw [json.parseValue]
  simp only [if_neg e1, if_true, if_neg h0, hsk, if_neg hb, hel]

/-- The value the decoder reads in the text the encoder wrote. -/
theorem parse_print (favs : favorites.Slice) :
    json.parse ((json.print favs).map some) =
      some (match favs with
        | .nil => .null
        | .of elems => .array (elems.map json.objectValue)) := by
  cases favs with
  | nil =>
    simp [json.parse, json.print, json.skipSpace, json.isSpace, json.parseValue,
      json.parseLiteral]
  | of elems =>
    cases elems with
    | nil =>
      simp [json.parse, json.print, json.skipSpace, json.isSpace, json.parseValue,
        json.maxNestingDepth]
    | cons fav rest =>
      have hlen := printElements_length fav rest
      have hin : (json.print (.of (fav :: rest))).map some =
          some '[' :: some '\n' :: some ' ' :: some ' ' ::
            ((json.printElements (fav :: rest)).map some ++ some '\n' :: some ']' :: []) := by
        simp [json.print]
      have hsk0 : json.skipSpace (some '[' :: some '\n' :: some ' ' :: some ' ' ::
          ((json.printElements (fav :: rest)).map some ++ some '\n' :: some ']' :: [])) =
          some '[' :: some '\n' :: some ' ' :: some ' ' ::
          ((json.printElements (fav :: rest)).map some ++ some '\n' :: some ']' :: []) := by
        simp [json.skipSpace, json.isSpace]
      rw [json.parse, hin, hsk0, parseValue_array fav rest []]
      · simp [json.skipSpace]
      · simp only [List.length_append, List.length_map, List.length_cons, List.length_nil]
        omega

/-- Unmarshalling what `MarshalIndent` wrote gives the elements back, every
string coerced to well-formed UTF-8. -/
theorem unmarshal_marshalIndent (favs : favorites.Slice) :
    json.Unmarshal (json.MarshalIndent favs) =
      some (favs.elems.map favorites.Favorite.coerce) := by
  rw [json.Unmarshal, json.MarshalIndent, decode_bytes, parse_print]
  cases favs with
  | nil => rfl
  | of elems =>
    simp only [toFavorites_objectValues, favorites.Slice.elems, List.map_map]
    congr 1
    apply List.map_congr_left
    intro fav _
    simp [json.TextFavorite.bytes, favorites.Favorite.coerce, coerce_eq_bytes_runes]

/-- Every string `Unmarshal` returns is well-formed UTF-8. -/
theorem unmarshal_coerced (data : ByteString) (favs : List favorites.Favorite)
    (h : json.Unmarshal data = some favs) : favs.map favorites.Favorite.coerce = favs := by
  have hb : ∀ t : json.TextFavorite, t.bytes.coerce = t.bytes := by
    intro t
    simp [json.TextFavorite.bytes, favorites.Favorite.coerce, coerce_bytes]
  unfold json.Unmarshal at h
  split at h
  · cases h; rfl
  · split at h
    · cases h
    · cases h
      simp [hb]
  · cases h

theorem goJSON_contract : goJSON.Contract :=
  ⟨fun favs => ⟨json.MarshalIndent favs, rfl, unmarshal_marshalIndent favs⟩,
    unmarshal_coerced⟩

end Codec

/-! ## The favorites store -/

set_option maxRecDepth 100000

section StoreClaims

open favorites

variable {Data : Type} (J : JSON Data)

/-- C5 (amended): `Add(x, d')` fails with the duplicate-favorite error whenever
some stored entry has command `x`, and the file is then unchanged; after a
successful `Add(x, d)` with `x` well-formed UTF-8, a second `Add(x, d')` fails
in this way and `List()` holds exactly one entry for `x`, whose description is
`d` as `encoding/json` stores it (`d` itself when `d` is well-formed UTF-8). -/
theorem add_duplicate_fails (hJ : J.Contract) (file : Option Data) (x d d' : ByteString) :
    (∀ favs, FavoritesManager.loadFavorites J file = .ok favs →
      (∃ fav ∈ favs, fav.Command = x) →
        FavoritesManager.Add J x d' file = (some (.duplicate x), file)) ∧
    (utf8.WellFormed x → (FavoritesManager.Add J x d file).1 = none →
      FavoritesManager.Add J x d' (FavoritesManager.Add J x d file).2 =
        (some (.duplicate x), (FavoritesManager.Add J x d file).2) ∧
      ∃ favs,
        FavoritesManager.List J
          (FavoritesManager.Add J x d' (FavoritesManager.Add J x d file).2).2 = .ok favs ∧
        favs.filter (fun fav => decide (fav.Command = x)) =
          [⟨x, utf8.Coerce d, getCurrentTime⟩]) ∧
    (utf8.WellFormed d → utf8.Coerce d = d) := by
  refine ⟨fun favs hload hx => add_of_mem J x d' file favs hload hx, ?_,
    coerce_wellFormed d⟩
  intro hwf hok
  cases hload : FavoritesManager.loadFavorites J file with
  | error err =>
    simp [FavoritesManager.Add, hload] at hok
  | ok favs =>
    by_cases hx : ∃ fav ∈ favs, fav.Command = x
    · rw [add_of_mem J x d file favs hload hx] at hok
      simp at hok
    · have hx' : ∀ fav ∈ favs, fav.Command ≠ x := fun fav hfav he => hx ⟨fav, hfav, he⟩
      obtain ⟨data, hadd, hload'⟩ := add_then_load J hJ x d file favs hload hx'
      rw [coerce_wellFormed x hwf] at hload'
      have hdup : FavoritesManager.Add J x d' (some data) = (some (.duplicate x), some data) :=
        add_of_mem J x d' (some data) _ hload'
          ⟨⟨x, utf8.Coerce d, getCurrentTime⟩, by simp, rfl⟩
      rw [hadd]
      refine ⟨hdup, favs ++ [⟨x, utf8.Coerce d, getCurrentTime⟩], ?_, ?_⟩
      · rw [hdup]
        exact hload'
      · exact filter_command_append_new favs x (utf8.Coerce d) getCurrentTime hx'

/-- C5 (witness): on an absent file, `Add(":wq", "저장 후 종료")` succeeds,
`Add(":wq", "x")` then fails with the duplicate-favorite error, and the list
holds one entry for ":wq", with the first description. -/
theorem add_duplicate_fails_witness :
    FavoritesManager.Add goJSON (utf8.Bytes ":wq".toList) (utf8.Bytes "x".toList)
        (FavoritesManager.Add goJSON (utf8.Bytes ":wq".toList)
          (utf8.Bytes "저장 후 종료".toList) none).2 =
      (some (.duplicate (utf8.Bytes ":wq".toList)),
        (FavoritesManager.Add goJSON (utf8.Bytes ":wq".toList)
          (utf8.Bytes "저장 후 종료".toList) none).2) ∧
    ∃ favs,
      FavoritesManager.List goJSON
        (FavoritesManager.Add goJSON (utf8.Bytes ":wq".toList) (utf8.Bytes "x".toList)
          (FavoritesManager.Add goJSON (utf8.Bytes ":wq".toList)
            (utf8.Bytes "저장 후 종료".toList) none).2).2 =
        .ok favs ∧
      favs.filter (fun fav => decide (fav.Command = utf8.Bytes ":wq".toList)) =
        [⟨utf8.Bytes ":wq".toList, utf8.Bytes "저장 후 종료".toList,
          getCurrentTime⟩] :=
  (add_duplicate_fails goJSON goJSON_contract none (utf8.Bytes ":wq".toList)
    (utf8.Bytes "저장 후 종료".toList) (utf8.Bytes "x".toList)).2.1 ⟨_, rfl⟩ rfl

/-- C5 (counterexample): on an absent file, `Add("\xff", "d")` succeeds and a
second `Add("\xff", "x")` succeeds as well; the list then holds two entries,
both with the command U+FFFD, and none with the command "\xff". -/
theorem add_ill_formed_twice_counterexample :
    (FavoritesManager.Add goJSON illFormed (utf8.Bytes "d".toList) none).1 = none ∧
    (FavoritesManager.Add goJSON illFormed (utf8.Bytes "x".toList)
      (FavoritesManager.Add goJSON illFormed (utf8.Bytes "d".toList) none).2).1 = none ∧
    FavoritesManager.List goJSON
        (FavoritesManager.Add goJSON illFormed (utf8.Bytes "x".toList)
          (FavoritesManager.Add goJSON illFormed (utf8.Bytes "d".toList) none).2).2 =
      .ok [⟨utf8.Bytes [utf8.RuneError], utf8.Bytes "d".toList, getCurrentTime⟩,
        ⟨utf8.Bytes [utf8.RuneError], utf8.Bytes "x".toList, getCurrentTime⟩] :=
  ⟨rfl, rfl, rfl⟩

/-- C6 (amended): on a store (an absent file included) in which no entry has
command `x`, `Add(x, d)` succeeds and the following `List()` returns the
previous sequence with one new entry appended, whose command and description
are `x` and `d` as `encoding/json` stores them (`x` and `d` themselves when
they are well-formed UTF-8); for a well-formed `x` exactly one listed entry has
command `x`. -/
theorem add_appends (hJ : J.Contract) (file : Option Data) (favs : List Favorite)
    (x d : ByteString) (hload : FavoritesManager.List J file = .ok favs)
    (hx : ∀ fav ∈ favs, fav.Command ≠ x) :
    (FavoritesManager.Add J x d file).1 = none ∧
    FavoritesManager.List J (FavoritesManager.Add J x d file).2 =
      .ok (favs ++ [⟨utf8.Coerce x, utf8.Coerce d, getCurrentTime⟩]) ∧
    (utf8.WellFormed x → utf8.Coerce x = x ∧
      (favs ++ [(⟨x, utf8.Coerce d, getCurrentTime⟩ : Favorite)]).filter
        (fun fav => decide (fav.Command = x)) = [⟨x, utf8.Coerce d, getCurrentTime⟩]) ∧
    (utf8.WellFormed d → utf8.Coerce d = d) := by
  obtain ⟨data, hadd, hload'⟩ := add_then_load J hJ x d file favs hload hx
  rw [hadd]
  exact ⟨rfl, hload', fun hwf => ⟨coerce_wellFormed x hwf,
    filter_command_append_new favs x (utf8.Coerce d) getCurrentTime hx⟩,
    coerce_wellFormed d⟩

/-- C6 (witness): adding ":wq" to an absent file, and then "dd" to the
resulting one-entry store. -/
theorem add_appends_witness :
    FavoritesManager.List goJSON
        (FavoritesManager.Add goJSON (utf8.Bytes ":wq".toList)
          (utf8.Bytes "save and quit".toList) none).2 = .ok [wqFavorite] ∧
    FavoritesManager.List goJSON
        (FavoritesManager.Add goJSON (utf8.Bytes "dd".toList)
          (utf8.Bytes "delete line".toList) (some (json.MarshalIndent (.of [wqFavorite])))).2 =
      .ok [wqFavorite, ddFavorite] :=
  ⟨(add_appends goJSON goJSON_contract none [] (utf8.Bytes ":wq".toList)
      (utf8.Bytes "save and quit".toList) rfl (by simp)).2.1.trans rfl,
    (add_appends goJSON goJSON_contract (some (json.MarshalIndent (.of [wqFavorite]))) [wqFavorite]
      (utf8.Bytes "dd".toList) (utf8.Bytes "delete line".toList) rfl
      (by decide)).2.1.trans rfl⟩

/-- C6 (counterexample): on an absent file, `Add("\xff", "d")` succeeds and
the list then holds one entry, whose command is U+FFFD and not "\xff". -/
theorem add_ill_formed_counterexample :
    (FavoritesManager.Add goJSON illFormed (utf8.Bytes "d".toList) none).1 = none ∧
    FavoritesManager.List goJSON
        (FavoritesManager.Add goJSON illFormed (utf8.Bytes "d".toList) none).2 =
      .ok [⟨utf8.Bytes [utf8.RuneError], utf8.Bytes "d".toList, getCurrentTime⟩] ∧
    utf8.Bytes [utf8.RuneError] ≠ illFormed :=
  ⟨rfl, rfl, by decide⟩

/-- C7: on a store holding at least one entry with command `x`, `Remove(x)`
succeeds and the following `List()` returns exactly the previous entries
whose command differs from `x`, in their previous order; none of them has
command `x`. -/
theorem remove_filters (hJ : J.Contract) (file : Option Data) (favs : List Favorite)
    (x : ByteString) (hload : FavoritesManager.List J file = .ok favs)
    (hx : ∃ fav ∈ favs, fav.Command = x) :
    (FavoritesManager.Remove J x file).1 = none ∧
    FavoritesManager.List J (FavoritesManager.Remove J x file).2 =
      .ok (favs.filter (fun fav => decide (fav.Command ≠ x))) ∧
    (favs.filter (fun fav => decide (fav.Command ≠ x))).Sublist favs ∧
    ∀ fav ∈ favs.filter (fun fav => decide (fav.Command ≠ x)), fav.Command ≠ x := by
  obtain ⟨data, hrem, hload'⟩ := remove_then_load J hJ x file favs hload hx
  rw [hrem]
  refine ⟨rfl, hload', List.filter_sublist _, ?_⟩
  intro fav hfav
  simpa using (List.mem_filter.mp hfav).2

/-- C7 (witness): removing ":wq" from the store holding ":wq" and "dd" leaves
"dd". -/
theorem remove_filters_witness :
    (FavoritesManager.Remove memJSON (utf8.Bytes ":wq".toList)
      (some [wqFavorite, ddFavorite])).1 = none ∧
    FavoritesManager.List memJSON
        (FavoritesManager.Remove memJSON (utf8.Bytes ":wq".toList)
          (some [wqFavorite, ddFavorite])).2 =
      .ok [ddFavorite] :=
  have h := remove_filters memJSON memJSON_contract (some [wqFavorite, ddFavorite])
    [wqFavorite, ddFavorite] (utf8.Bytes ":wq".toList) rfl ⟨wqFavorite, by simp, rfl⟩
  ⟨h.1, h.2.1.trans rfl⟩

/-- C8: `Remove(y)` fails with the favorite-not-found error if and only if the
store loads and no stored entry has command `y`; on that failure the file is
left as it was, so an absent file stays absent and existing content is not
rewritten; on an absent or empty store `Remove` always fails in this way. -/
theorem remove_missing_fails (file : Option Data) (y : ByteString) :
    ((FavoritesManager.Remove J y file).1 = some (.notFound y) ↔
      ∃ favs, FavoritesManager.loadFavorites J file = .ok favs ∧
        ∀ fav ∈ favs, fav.Command ≠ y) ∧
    ((FavoritesManager.Remove J y file).1 = some (.notFound y) →
      (FavoritesManager.Remove J y file).2 = file) ∧
    FavoritesManager.Remove J y none = (some (.notFound y), none) ∧
    (FavoritesManager.loadFavorites J file = .ok [] →
      FavoritesManager.Remove J y file = (some (.notFound y), file)) := by
  have habsent : FavoritesManager.Remove J y none = (some (.notFound y), none) :=
    remove_of_not_mem J y none [] rfl (by simp)
  have hempty : FavoritesManager.loadFavorites J file = .ok [] →
      FavoritesManager.Remove J y file = (some (.notFound y), file) :=
    fun h => remove_of_not_mem J y file [] h (by simp)
  cases hload : FavoritesManager.loadFavorites J file with
  | error err =>
    have hrem : FavoritesManager.Remove J y file = (some err, file) := by
      simp [FavoritesManager.Remove, hload]
    have herr : err = .parse := by
      cases file with
      | none => simp [FavoritesManager.loadFavorites] at hload
      | some data =>
        simp only [FavoritesManager.loadFavorites] at hload
        split at hload
        · cases hload; rfl
        · cases hload
    subst herr
    refine ⟨?_, ?_, habsent, ?_⟩
    · rw [hrem]; simp
    · rw [hrem]; simp
    · intro h; cases h
  | ok favs =>
    by_cases hy : ∃ fav ∈ favs, fav.Command = y
    · have hrem := remove_of_mem J y file favs hload hy
      have hne : (FavoritesManager.Remove J y file).1 ≠ some (.notFound y) := by
        rw [hrem]
        unfold FavoritesManager.saveFavorites
        split <;> simp
      refine ⟨?_, ?_, habsent, ?_⟩
      · constructor
        · intro h; exact absurd h hne
        · rintro ⟨favs', hfavs', hall⟩
          cases hfavs'
          obtain ⟨fav, hfav, he⟩ := hy
          exact absurd he (hall fav hfav)
      · intro h; exact absurd h hne
      · intro h
        rw [hload] at hempty
        exact hempty h
    · have hy' : ∀ fav ∈ favs, fav.Command ≠ y := fun fav hfav he => hy ⟨fav, hfav, he⟩
      have hrem := remove_of_not_mem J y file favs hload hy'
      refine ⟨?_, ?_, habsent, ?_⟩
      · rw [hrem]
        simp only [true_iff]
        exact ⟨favs, rfl, hy'⟩
      · intro _; rw [hrem]
      · intro _; exact hrem

/-- C9: whatever the file held, `Clear()` succeeds, the following `List()`
returns the empty sequence, and a second `Clear()` leaves the file as the
first one left it. -/
theorem clear_then_list (hJ : J.Contract) (file : Option Data) :
    (FavoritesManager.Clear J file).1 = none ∧
    FavoritesManager.List J (FavoritesManager.Clear J file).2 = .ok [] ∧
    FavoritesManager.Clear J (FavoritesManager.Clear J file).2 =
      FavoritesManager.Clear J file := by
  obtain ⟨data, hsave, hload'⟩ := save_then_load J hJ (.of []) file
  obtain ⟨data', hm, _⟩ := hJ.1 (.of [])
  have hclear : ∀ f : Option Data, FavoritesManager.Clear J f = (none, some data') := by
    intro f
    simp [FavoritesManager.Clear, FavoritesManager.saveFavorites, hm]
  have hd : data = data' := by
    have := hclear file
    rw [FavoritesManager.Clear, hsave] at this
    simpa using this
  subst hd
  rw [hclear file]
  exact ⟨rfl, hload', hclear _⟩

/-- C9 (witness): clearing the store holding ":wq" and "dd". -/
theorem clear_then_list_witness :
    (FavoritesManager.Clear memJSON (some [wqFavorite, ddFavorite])).1 = none ∧
    FavoritesManager.List memJSON
      (FavoritesManager.Clear memJSON (some [wqFavorite, ddFavorite])).2 = .ok [] ∧
    FavoritesManager.Clear memJSON
        (FavoritesManager.Clear memJSON (some [wqFavorite, ddFavorite])).2 =
      FavoritesManager.Clear memJSON (some [wqFavorite, ddFavorite]) :=
  clear_then_list memJSON memJSON_contract (some [wqFavorite, ddFavorite])

/-- One call with a well-formed command on a store that loads with pairwise
distinct commands leaves a store that loads with pairwise distinct commands. -/
theorem call_keeps_unique (hJ : J.Contract) (call : Call) (hwf : call.WellFormed)
    (file : Option Data) (favs : List Favorite)
    (hload : FavoritesManager.loadFavorites J file = .ok favs)
    (hu : UniqueCommands favs) :
    ∃ favs', FavoritesManager.loadFavorites J (call.run J file).2 = .ok favs' ∧
      UniqueCommands favs' := by
  cases call with
  | add x d =>
    by_cases hx : ∃ fav ∈ favs, fav.Command = x
    · refine ⟨favs, ?_, hu⟩
      simp only [Call.run, add_of_mem J x d file favs hload hx]
      exact hload
    · have hx' : ∀ fav ∈ favs, fav.Command ≠ x := fun fav hfav he => hx ⟨fav, hfav, he⟩
      obtain ⟨data, hadd, hload'⟩ := add_then_load J hJ x d file favs hload hx'
      rw [coerce_wellFormed x hwf] at hload'
      refine ⟨favs ++ [⟨x, utf8.Coerce d, getCurrentTime⟩], ?_,
        uniqueCommands_append_new favs x (utf8.Coerce d) getCurrentTime hu hx'⟩
      simp only [Call.run, hadd]
      exact hload'
  | remove x =>
    by_cases hx : ∃ fav ∈ favs, fav.Command = x
    · obtain ⟨data, hrem, hload'⟩ := remove_then_load J hJ x file favs hload hx
      refine ⟨favs.filter (fun fav => decide (fav.Command ≠ x)), ?_,
        uniqueCommands_filter favs _ hu⟩
      simp only [Call.run, hrem]
      exact hload'
    · have hx' : ∀ fav ∈ favs, fav.Command ≠ x := fun fav hfav he => hx ⟨fav, hfav, he⟩
      refine ⟨favs, ?_, hu⟩
      simp only [Call.run, remove_of_not_mem J x file favs hload hx']
      exact hload
  | clear =>
    obtain ⟨data, hsave, hload'⟩ := save_then_load J hJ (.of []) file
    refine ⟨[], ?_, List.nodup_nil⟩
    simp only [Call.run, FavoritesManager.Clear, hsave]
    exact hload'

/-- A sequence of calls with well-formed commands on a store that loads with
pairwise distinct commands leaves a store that loads with pairwise distinct
commands. -/
theorem calls_keep_unique (hJ : J.Contract) (calls : List Call)
    (hwf : ∀ call ∈ calls, call.WellFormed) (file : Option Data)
    (favs : List Favorite) (hload : FavoritesManager.loadFavorites J file = .ok favs)
    (hu : UniqueCommands favs) :
    ∃ favs', FavoritesManager.loadFavorites J (runCalls J calls file) = .ok favs' ∧
      UniqueCommands favs' := by
  induction calls generalizing file favs with
  | nil => exact ⟨favs, hload, hu⟩
  | cons call calls ih =>
    obtain ⟨favs₁, hload₁, hu₁⟩ :=
      call_keeps_unique J hJ call (hwf call (List.mem_cons_self _ _)) file favs hload hu
    exact ih (fun c hc => hwf c (List.mem_cons_of_mem _ hc)) _ favs₁ hload₁ hu₁

/-- C10 (amended): if the stored entries have pairwise distinct commands, they
still do after any `Remove` or `Clear` call and after any `Add` call whose
command is well-formed UTF-8, whether the call succeeds or fails; hence the
store reached from an absent or empty store by any sequence of such calls has
pairwise distinct commands. -/
theorem unique_commands_invariant (hJ : J.Contract) :
    (∀ (call : Call) (file : Option Data) (favs : List Favorite),
      call.WellFormed →
      FavoritesManager.List J file = .ok favs → UniqueCommands favs →
      ∃ favs', FavoritesManager.List J (call.run J file).2 = .ok favs' ∧
        UniqueCommands favs') ∧
    (∀ (calls : List Call) (file : Option Data),
      (∀ call ∈ calls, call.WellFormed) →
      FavoritesManager.List J file = .ok [] →
      ∃ favs, FavoritesManager.List J (runCalls J calls file) = .ok favs ∧
        UniqueCommands favs) :=
  ⟨fun call file favs hwf hload hu => call_keeps_unique J hJ call hwf file favs hload hu,
    fun calls file hwf hload =>
      calls_keep_unique J hJ calls hwf file [] hload List.nodup_nil⟩

/-- C10 (witness): from the absent file, adding ":wq", adding ":wq" again
(which fails), adding "dd" and removing ":wq" leaves the one entry "dd". -/
theorem unique_commands_invariant_witness :
    ∃ favs,
      FavoritesManager.List goJSON
        (runCalls goJSON
          [.add (utf8.Bytes ":wq".toList) (utf8.Bytes "save and quit".toList),
            .add (utf8.Bytes ":wq".toList) (utf8.Bytes "x".toList),
            .add (utf8.Bytes "dd".toList) (utf8.Bytes "delete line".toList),
            .remove (utf8.Bytes ":wq".toList)] none) = .ok favs ∧
      UniqueCommands favs :=
  (unique_commands_invariant goJSON goJSON_contract).2
    [.add (utf8.Bytes ":wq".toList) (utf8.Bytes "save and quit".toList),
      .add (utf8.Bytes ":wq".toList) (utf8.Bytes "x".toList),
      .add (utf8.Bytes "dd".toList) (utf8.Bytes "delete line".toList),
      .remove (utf8.Bytes ":wq".toList)] none
    (by
      intro call hcall
      simp only [List.mem_cons, List.mem_singleton, List.not_mem_nil, or_false] at hcall
      rcases hcall with rfl | rfl | rfl | rfl
      · exact ⟨_, rfl⟩
      · exact ⟨_, rfl⟩
      · exact ⟨_, rfl⟩
      · trivial)
    rfl

/-- C10 (counterexample): from the absent file, `Add("\xff", "d")` twice, both
of which succeed, leaves two entries with the same command, U+FFFD. -/
theorem unique_commands_counterexample :
    FavoritesManager.List goJSON
        (runCalls goJSON
          [.add illFormed (utf8.Bytes "d".toList), .add illFormed (utf8.Bytes "d".toList)]
          none) =
      .ok [⟨utf8.Bytes [utf8.RuneError], utf8.Bytes "d".toList, getCurrentTime⟩,
        ⟨utf8.Bytes [utf8.RuneError], utf8.Bytes "d".toList, getCurrentTime⟩] ∧
    ¬ UniqueCommands
      [⟨utf8.Bytes [utf8.RuneError], utf8.Bytes "d".toList, getCurrentTime⟩,
        ⟨utf8.Bytes [utf8.RuneError], utf8.Bytes "d".toList, getCurrentTime⟩] :=
  ⟨rfl, by simp [UniqueCommands]⟩

end StoreClaims

/-! ## Lemmas on trimming, the category loops and the category map -/

section Categories

variable (U : CaseTables)

/-- The first code point left by `dropWhile` does not satisfy the test. -/
theorem dropWhile_head_not {α : Type} (p : α → Bool) (l : List α) (a : α) (r : List α)
    (h : l.dropWhile p = a :: r) : p a = false := by
  induction l with
  | nil => simp at h
  | cons b l ih =>
    rw [List.dropWhile_cons] at h
    by_cases hb : p b = true
    · rw [if_pos hb] at h
      exact ih h
    · rw [if_neg hb] at h
      cases h
      simpa using hb

/-- Trimming a trimmed string changes nothing. -/
theorem trimSpace_idem (s : GoString) :
    strings.TrimSpace (strings.TrimSpace s) = strings.TrimSpace s := by
  unfold strings.TrimSpace
  have hdrop : List.dropWhile unicode.IsSpace
      ((s.dropWhile unicode.IsSpace).rdropWhile unicode.IsSpace) =
      (s.dropWhile unicode.IsSpace).rdropWhile unicode.IsSpace := by
    obtain ⟨r, hr⟩ :=
      List.rdropWhile_prefix unicode.IsSpace (l := s.dropWhile unicode.IsSpace)
    cases ht : (s.dropWhile unicode.IsSpace).rdropWhile unicode.IsSpace with
    | nil => rfl
    | cons a t =>
      rw [ht, List.cons_append] at hr
      have ha := dropWhile_head_not unicode.IsSpace s a (t ++ r) hr.symm
      simp [List.dropWhile_cons, ha]
  rw [hdrop, List.rdropWhile_idempotent]

/-- The loop of `GetCommandByCategory` appends the records of the category. -/
theorem explain_categoryScan_eq (category : GoString) (l acc : List Command) :
    explain.categoryScan U category l acc =
      acc ++ l.filter (fun cmd => decide (strings.ToLower U cmd.Category = category)) := by
  induction l generalizing acc with
  | nil => simp [explain.categoryScan]
  | cons a l ih =>
    rw [explain.categoryScan]
    by_cases h : strings.ToLower U a.Category = category
    · simp [h, ih]
    · simp [h, ih]

/-- The loop of `SearchByCategory` appends the records of the category. -/
theorem search_categoryScan_eq (category : GoString) (l acc : List Command) :
    search.categoryScan U category l acc =
      acc ++ l.filter (fun cmd => decide (strings.ToLower U cmd.Category = category)) := by
  induction l generalizing acc with
  | nil => simp [search.categoryScan]
  | cons a l ih =>
    rw [search.categoryScan]
    by_cases h : strings.ToLower U a.Category = category
    · simp [h, ih]
    · simp [h, ih]

/-- Appending the visited elements one by one rebuilds the visited list. -/
theorem foldl_append_singleton {α : Type} (l acc : List α) :
    l.foldl (fun categories category => categories ++ [category]) acc = acc ++ l := by
  induction l generalizing acc with
  | nil => simp
  | cons a l ih => simp [ih]

theorem mapSet_nodup (m : List GoString) (key : GoString) (h : m.Nodup) :
    (search.mapSet m key).Nodup := by
  unfold search.mapSet
  split
  · exact h
  · rename_i hk
    rw [List.nodup_append]
    refine ⟨h, List.nodup_singleton _, ?_⟩
    intro a ha hb
    rw [List.mem_singleton] at hb
    exact hk (hb ▸ ha)

theorem mem_mapSet (m : List GoString) (key c : GoString) :
    c ∈ search.mapSet m key ↔ c ∈ m ∨ c = key := by
  unfold search.mapSet
  split
  · rename_i hk
    constructor
    · exact Or.inl
    · rintro (h | rfl)
      · exact h
      · exact hk
  · simp

/-- The keys of the map built by `GetCategories`: no key twice, and exactly
the keys already present and the categories of the visited records. -/
theorem categoryMap_spec (l : List Command) (m : List GoString) (h : m.Nodup) :
    (l.foldl (fun m cmd => search.mapSet m cmd.Category) m).Nodup ∧
    ∀ c, c ∈ l.foldl (fun m cmd => search.mapSet m cmd.Category) m ↔
      c ∈ m ∨ ∃ cmd ∈ l, cmd.Category = c := by
  induction l generalizing m with
  | nil => simp [h]
  | cons a l ih =>
    obtain ⟨hn, hmem⟩ := ih (search.mapSet m a.Category) (mapSet_nodup m a.Category h)
    refine ⟨hn, ?_⟩
    intro c
    rw [List.foldl_cons, hmem, mem_mapSet]
    constructor
    · rintro ((h1 | h1) | ⟨cmd, hcmd, h1⟩)
      · exact Or.inl h1
      · exact Or.inr ⟨a, List.mem_cons_self _ _, h1.symm⟩
      · exact Or.inr ⟨cmd, List.mem_cons_of_mem _ hcmd, h1⟩
    · rintro (h1 | ⟨cmd, hcmd, h1⟩)
      · exact Or.inl (Or.inl h1)
      · rcases List.mem_cons.mp hcmd with rfl | hcmd
        · exact Or.inl (Or.inr h1.symm)
        · exact Or.inr ⟨cmd, hcmd, h1⟩

end Categories

/-! ## The `fav add` command, the empty query and the categories -/

section MoreClaims

open favorites

/-- C12: `Search("")` returns every record of the catalog, in catalog order,
with `Count` equal to the number of records. -/
theorem search_empty_keyword (U : CaseTables) (catalog : List Command) :
    search.Search U (.ok catalog) [] = .ok ⟨catalog, (catalog.length : Int)⟩ := by
  simp [search.Search, search_scan_eq, strings.ToLower]

/-- C13: `SearchByCategory(g)` and `GetCommandByCategory(g)` both return
exactly the catalog records whose lower-cased category equals the lower-cased
`g`, in catalog order, and so the same records as each other. -/
theorem category_listings (U : CaseTables) (catalog : List Command) (g : GoString) :
    ∃ r l, search.SearchByCategory U (.ok catalog) g = .ok r ∧
      explain.GetCommandByCategory U (.ok catalog) g = .ok l ∧
      r.Commands = catalog.filter (fun cmd =>
        decide (strings.ToLower U cmd.Category = strings.ToLower U g)) ∧
      l = catalog.filter (fun cmd =>
        decide (strings.ToLower U cmd.Category = strings.ToLower U g)) ∧
      r.Commands = l ∧ r.Count = (l.length : Int) := by
  refine ⟨_, _, rfl, rfl, ?_, ?_, ?_, ?_⟩ <;>
    simp [search_categoryScan_eq, explain_categoryScan_eq]

/-- C14: whatever order the range over the map visits the keys in,
`GetCategories()` returns a list with no repeated element whose elements are
exactly the category values occurring in the catalog. -/
theorem categories_distinct (rangeOrder : List GoString → List GoString)
    (hR : ∀ keys, (rangeOrder keys).Perm keys) (catalog : List Command) :
    ∃ categories, search.GetCategories rangeOrder (.ok catalog) = .ok categories ∧
      categories.Nodup ∧
      (∀ cmd ∈ catalog, cmd.Category ∈ categories) ∧
      (∀ c ∈ categories, ∃ cmd ∈ catalog, cmd.Category = c) := by
  obtain ⟨hn, hmem⟩ := categoryMap_spec catalog [] List.nodup_nil
  refine ⟨_, rfl, ?_, ?_, ?_⟩
  · rw [foldl_append_singleton, List.nil_append]
    exact (hR _).nodup_iff.mpr hn
  · intro cmd hcmd
    rw [foldl_append_singleton, List.nil_append, (hR _).mem_iff, hmem]
    exact Or.inr ⟨cmd, hcmd, rfl⟩
  · intro c hc
    rw [foldl_append_singleton, List.nil_append, (hR _).mem_iff, hmem] at hc
    simpa using hc

/-- C14 (witness): on `mixedCatalog`, with the keys visited in reverse order
of insertion, the categories are "delete" and "file". -/
theorem categories_distinct_witness :
    search.GetCategories List.reverse (.ok mixedCatalog) =
      .ok ["delete".toList, "file".toList] ∧
    ∃ categories, search.GetCategories List.reverse (.ok mixedCatalog) = .ok categories ∧
      categories.Nodup ∧
      (∀ cmd ∈ mixedCatalog, cmd.Category ∈ categories) ∧
      (∀ c ∈ categories, ∃ cmd ∈ mixedCatalog, cmd.Category = c) :=
  ⟨rfl, categories_distinct List.reverse (fun keys => List.reverse_perm keys) mixedCatalog⟩

/-- C15 (amended): with `encoding/json` as `goJSON` models it, for every
sequence of favorites, whatever the file held before, `saveFavorites`
succeeds and `loadFavorites` then returns the entries in the same order with
every string coerced to well-formed UTF-8, hence the same entries when their
strings are well-formed UTF-8; `Clear` writes `[]`, `Remove` of the last entry
writes `null`, and both files load as the sequence without entries. -/
theorem save_load_round_trip (fs : Slice) (file : Option ByteString) :
    (FavoritesManager.saveFavorites goJSON fs file).1 = none ∧
    FavoritesManager.loadFavorites goJSON
        (FavoritesManager.saveFavorites goJSON fs file).2 =
      .ok (fs.elems.map Favorite.coerce) ∧
    ((∀ fav ∈ fs.elems, utf8.WellFormed fav.Command ∧ utf8.WellFormed fav.Description ∧
        utf8.WellFormed fav.AddedAt) →
      FavoritesManager.loadFavorites goJSON
          (FavoritesManager.saveFavorites goJSON fs file).2 =
        .ok fs.elems) ∧
    FavoritesManager.Clear goJSON file = (none, some (utf8.Bytes "[]".toList)) ∧
    FavoritesManager.loadFavorites goJSON (some (utf8.Bytes "[]".toList)) = .ok [] ∧
    (∀ fav, FavoritesManager.loadFavorites goJSON file = .ok [fav] →
      FavoritesManager.Remove goJSON fav.Command file =
        (none, some (utf8.Bytes "null".toList))) ∧
    FavoritesManager.loadFavorites goJSON (some (utf8.Bytes "null".toList)) = .ok [] := by
  have hload : FavoritesManager.loadFavorites goJSON
      (FavoritesManager.saveFavorites goJSON fs file).2 =
      .ok (fs.elems.map Favorite.coerce) := by
    simp [FavoritesManager.saveFavorites, FavoritesManager.loadFavorites, goJSON,
      unmarshal_marshalIndent]
  refine ⟨rfl, hload, ?_, rfl, ?_, ?_, ?_⟩
  · intro hwf
    rw [hload]
    congr 1
    conv_rhs => rw [← List.map_id fs.elems]
    apply List.map_congr_left
    intro fav hfav
    obtain ⟨h1, h2, h3⟩ := hwf fav hfav
    simp [Favorite.coerce, coerce_wellFormed _ h1, coerce_wellFormed _ h2,
      coerce_wellFormed _ h3]
  · rfl
  · intro fav hfav
    rw [remove_of_mem goJSON fav.Command file [fav] hfav ⟨fav, by simp, rfl⟩]
    simp [FavoritesManager.removeLoop, FavoritesManager.saveFavorites, goJSON,
      json.MarshalIndent, json.print]
  · rfl

/-- C15 (witness): the two favorites ":wq" and "dd", saved over an absent
file, load as they were; removing ":wq" from the store that holds only it
writes `null`. -/
theorem save_load_round_trip_witness :
    FavoritesManager.loadFavorites goJSON
        (FavoritesManager.saveFavorites goJSON (.of [wqFavorite, ddFavorite]) none).2 =
      .ok [wqFavorite, ddFavorite] ∧
    FavoritesManager.Remove goJSON (utf8.Bytes ":wq".toList)
        (some (json.MarshalIndent (.of [wqFavorite]))) =
      (none, some (utf8.Bytes "null".toList)) :=
  ⟨(save_load_round_trip (.of [wqFavorite, ddFavorite]) none).2.2.1 (by
      intro fav hfav
      simp only [Slice.elems, List.mem_cons, List.mem_singleton, List.not_mem_nil,
        or_false] at hfav
      rcases hfav with rfl | rfl <;> exact ⟨⟨_, rfl⟩, ⟨_, rfl⟩, ⟨_, rfl⟩⟩),
    (save_load_round_trip .nil (some (json.MarshalIndent (.of [wqFavorite])))).2.2.2.2.2.1
      wqFavorite rfl⟩

/-- C15 (counterexample): saving the one favorite with command "\xff" over an
absent file writes the command as `\ufffd`, and loading returns an entry whose
command is U+FFFD, not "\xff". -/
theorem save_load_ill_formed_counterexample :
    FavoritesManager.saveFavorites goJSON
        (.of [⟨illFormed, utf8.Bytes "d".toList, getCurrentTime⟩]) none =
      (none, some (utf8.Bytes
        ("[\n  \x7b\n    \"command\": \"\\ufffd\",\n    \"description\": \"d\",\n" ++
          "    \"added_at\": \"2024-01-01 12:00:00\"\n  \x7d\n]").toList)) ∧
    FavoritesManager.loadFavorites goJSON
        (FavoritesManager.saveFavorites goJSON
          (.of [⟨illFormed, utf8.Bytes "d".toList, getCurrentTime⟩]) none).2 =
      .ok [⟨utf8.Bytes [utf8.RuneError], utf8.Bytes "d".toList, getCurrentTime⟩] ∧
    utf8.Bytes [utf8.RuneError] ≠ illFormed :=
  ⟨rfl, rfl, by decide⟩

/-- C16 (the code at the failing input): two favorites added one after the
other both carry the constant "2024-01-01 12:00:00" as `AddedAt`. -/
theorem added_at_constant :
    FavoritesManager.List memJSON
        (runCalls memJSON
          [.add (utf8.Bytes ":wq".toList) (utf8.Bytes "save and quit".toList),
            .add (utf8.Bytes "dd".toList) (utf8.Bytes "delete line".toList)]
          none) =
      .ok [⟨utf8.Bytes ":wq".toList, utf8.Bytes "save and quit".toList,
          utf8.Bytes "2024-01-01 12:00:00".toList⟩,
        ⟨utf8.Bytes "dd".toList, utf8.Bytes "delete line".toList,
          utf8.Bytes "2024-01-01 12:00:00".toList⟩] :=
  rfl

/-- C17: `Explain(c)` returns the same result as `Explain` applied to `c`
without its leading and trailing white space. -/
theorem explain_ignores_surrounding_space (U : CaseTables)
    (loadCommands : Except LoadError (List Command)) (c : GoString) :
    explain.Explain U loadCommands c = explain.Explain U loadCommands (strings.TrimSpace c) := by
  cases loadCommands with
  | error err => rfl
  | ok catalog => simp only [explain.Explain, trimSpace_idem]

/-- C18: no record among the suggestions of `Explain(c)` has a command equal
to the trimmed `c` under case-insensitive comparison, whether `Found` is true
or false. -/
theorem suggestion_never_exact (U : CaseTables) (catalog : List Command) (c : GoString) :
    ∃ r, explain.Explain U (.ok catalog) c = .ok r ∧
      ∀ s ∈ r.Suggestions, strings.EqualFold U s.Command (strings.TrimSpace c) = false := by
  refine ⟨_, rfl, ?_⟩
  rcases first_split (fun cmd => strings.EqualFold U cmd.Command (strings.TrimSpace c))
    catalog with hn | ⟨pre, m, post, hl, hpre, hm, _⟩
  · intro s hs
    simp only [explain_scan_none U _ catalog _ _ hn, List.nil_append] at hs
    exact hn s (List.mem_filter.mp hs).1
  · subst hl
    intro s hs
    simp only [explain_scan_found U _ pre m post _ _ hpre hm, List.nil_append] at hs
    exact hpre s (List.mem_filter.mp hs).1

/-- C19: every suggestion of `Explain(c)` is among the commands returned by
`Search(t)`, where `t` is `c` without its surrounding white space. -/
theorem suggestions_are_search_hits (U : CaseTables) (catalog : List Command)
    (c : GoString) :
    ∃ r s, explain.Explain U (.ok catalog) c = .ok r ∧
      search.Search U (.ok catalog) (strings.TrimSpace c) = .ok s ∧
      ∀ x ∈ r.Suggestions, x ∈ s.Commands := by
  refine ⟨_, _, rfl, rfl, ?_⟩
  simp only [search_scan_eq, List.nil_append]
  rcases first_split (fun cmd => strings.EqualFold U cmd.Command (strings.TrimSpace c))
    catalog with hn | ⟨pre, m, post, hl, hpre, hm, _⟩
  · intro x hx
    simp only [explain_scan_none U _ catalog _ _ hn, List.nil_append] at hx
    obtain ⟨hmem, hp⟩ := List.mem_filter.mp hx
    refine List.mem_filter.mpr ⟨hmem, ?_⟩
    rcases of_decide_eq_true hp with h | h
    · exact decide_eq_true (Or.inr (Or.inl h))
    · exact decide_eq_true (Or.inl h)
  · subst hl
    intro x hx
    simp only [explain_scan_found U _ pre m post _ _ hpre hm, List.nil_append] at hx
    obtain ⟨hmem, hp⟩ := List.mem_filter.mp hx
    refine List.mem_filter.mpr ⟨List.mem_append_left _ hmem, ?_⟩
    rcases of_decide_eq_true hp with h | h
    · exact decide_eq_true (Or.inr (Or.inl h))
    · exact decide_eq_true (Or.inl h)

/-- C20: when lower-cased `k1` is a substring of lower-cased `k2`, every record
in `Search(k2).Commands` is in `Search(k1).Commands`, and
`Search(k2).Count <= Search(k1).Count`. -/
theorem search_antitone (U : CaseTables) (catalog : List Command) (k1 k2 : GoString)
    (h : strings.ToLower U k1 <:+: strings.ToLower U k2) :
    ∃ r1 r2, search.Search U (.ok catalog) k1 = .ok r1 ∧
      search.Search U (.ok catalog) k2 = .ok r2 ∧
      (∀ x ∈ r2.Commands, x ∈ r1.Commands) ∧ r2.Commands.Sublist r1.Commands ∧
      r2.Count ≤ r1.Count := by
  have hsub : (search.scan U (strings.ToLower U k2) catalog []).Sublist
      (search.scan U (strings.ToLower U k1) catalog []) := by
    simp only [search_scan_eq, List.nil_append]
    apply List.monotone_filter_right
    intro cmd hp
    rcases of_decide_eq_true hp with h' | h' | h' | h'
    · exact decide_eq_true (Or.inl (h.trans h'))
    · exact decide_eq_true (Or.inr (Or.inl (h.trans h')))
    · exact decide_eq_true (Or.inr (Or.inr (Or.inl (h.trans h'))))
    · exact decide_eq_true (Or.inr (Or.inr (Or.inr (h.trans h'))))
  refine ⟨_, _, rfl, rfl, fun x hx => hsub.subset hx, hsub, ?_⟩
  exact Int.ofNat_le.mpr hsub.length_le

/-- C20 (witness): on `wqCatalog`, "w" occurs in ":wq", and the one record
found for ":WQ" is among the two found for "W". -/
theorem search_antitone_witness :
    ∃ r1 r2, search.Search asciiTables (.ok wqCatalog) "W".toList = .ok r1 ∧
      search.Search asciiTables (.ok wqCatalog) ":WQ".toList = .ok r2 ∧
      (∀ x ∈ r2.Commands, x ∈ r1.Commands) ∧ r2.Commands.Sublist r1.Commands ∧
      r2.Count ≤ r1.Count :=
  search_antitone asciiTables wqCatalog "W".toList ":WQ".toList (by decide)

end MoreClaims

/-! ## Removing what was added -/

section AddThenRemove

open favorites

/-- Filtering out the command `x` from a sequence without `x`, extended by one
entry for `x`, gives the sequence back. -/
theorem filter_append_new_ne (favs : List Favorite) (x d t : ByteString)
    (hx : ∀ fav ∈ favs, fav.Command ≠ x) :
    (favs ++ [(⟨x, d, t⟩ : Favorite)]).filter (fun fav => decide (fav.Command ≠ x)) =
      favs := by
  have hkeep : favs.filter (fun fav => decide (fav.Command ≠ x)) = favs := by
    rw [List.filter_eq_self]
    intro fav hfav
    simpa using hx fav hfav
  rw [List.filter_append, hkeep]
  simp

/-- C21 (amended): on a store in which no entry has command `x`, for `x`
well-formed UTF-8, `Add(x, d)` and then `Remove(x)` both succeed, and the
following `List()` returns the same entries, in the same order, as `List()`
returned before the `Add`. -/
theorem remove_undoes_add {Data : Type} (J : JSON Data) (hJ : J.Contract)
    (file : Option Data) (favs : List Favorite) (x d : ByteString)
    (hwf : utf8.WellFormed x)
    (hload : FavoritesManager.List J file = .ok favs)
    (hx : ∀ fav ∈ favs, fav.Command ≠ x) :
    (FavoritesManager.Add J x d file).1 = none ∧
    (FavoritesManager.Remove J x (FavoritesManager.Add J x d file).2).1 = none ∧
    FavoritesManager.List J
        (FavoritesManager.Remove J x (FavoritesManager.Add J x d file).2).2 =
      .ok favs := by
  obtain ⟨data, hadd, hload'⟩ := add_then_load J hJ x d file favs hload hx
  rw [coerce_wellFormed x hwf] at hload'
  obtain ⟨data', hrem, hload''⟩ := remove_then_load J hJ x (some data) _ hload'
    ⟨⟨x, utf8.Coerce d, getCurrentTime⟩, by simp, rfl⟩
  rw [filter_append_new_ne favs x (utf8.Coerce d) getCurrentTime hx] at hload''
  rw [hadd, hrem]
  exact ⟨rfl, rfl, hload''⟩

/-- C21 (witness): adding and removing "dd" on an absent file leaves the empty
list, and on the store holding ":wq" leaves that one entry. -/
theorem remove_undoes_add_witness :
    FavoritesManager.List goJSON
        (FavoritesManager.Remove goJSON (utf8.Bytes "dd".toList)
          (FavoritesManager.Add goJSON (utf8.Bytes "dd".toList)
            (utf8.Bytes "delete line".toList) none).2).2 =
      .ok [] ∧
    FavoritesManager.List goJSON
        (FavoritesManager.Remove goJSON (utf8.Bytes "dd".toList)
          (FavoritesManager.Add goJSON (utf8.Bytes "dd".toList)
            (utf8.Bytes "delete line".toList) (some (json.MarshalIndent (.of [wqFavorite])))).2).2 =
      .ok [wqFavorite] :=
  ⟨(remove_undoes_add goJSON goJSON_contract none [] (utf8.Bytes "dd".toList)
      (utf8.Bytes "delete line".toList) ⟨_, rfl⟩ rfl (by simp)).2.2,
    (remove_undoes_add goJSON goJSON_contract (some (json.MarshalIndent (.of [wqFavorite])))
      [wqFavorite]
      (utf8.Bytes "dd".toList) (utf8.Bytes "delete line".toList) ⟨_, rfl⟩ rfl
      (by decide)).2.2⟩

/-- C21 (counterexample): on an absent file, `Add("\xff", "d")` succeeds and
`Remove("\xff")` then fails with the favorite-not-found error, leaving the
entry in the store. -/
theorem remove_ill_formed_counterexample :
    (FavoritesManager.Add goJSON illFormed (utf8.Bytes "d".toList) none).1 = none ∧
    FavoritesManager.Remove goJSON illFormed
        (FavoritesManager.Add goJSON illFormed (utf8.Bytes "d".toList) none).2 =
      (some (.notFound illFormed),
        (FavoritesManager.Add goJSON illFormed (utf8.Bytes "d".toList) none).2) ∧
    FavoritesManager.List goJSON
        (FavoritesManager.Remove goJSON illFormed
          (FavoritesManager.Add goJSON illFormed (utf8.Bytes "d".toList) none).2).2 =
      .ok [⟨utf8.Bytes [utf8.RuneError], utf8.Bytes "d".toList, getCurrentTime⟩] :=
  ⟨rfl, rfl, rfl⟩

end AddThenRemove
